import Mathlib

/-!
Verification of the subtitle/transcript core of `video2text_helper`.

Python strings are embedded as `List Char` (`PyStr`), fallible Python calls
as `Option`.  Numeric timestamp code appears in two layers: an
exact-rational idealization (machine floats carried as `ℚ` with exact
arithmetic) and a faithful IEEE-754 binary64 layer (`rnd53` rounding after
every float instruction, `OverflowError` at int→float overflow), whose
definitions carry an `F` suffix.  The binary64 layer is the semantics of
the running program; the exact layer is sound for claims rounding cannot
affect (signs, counts, text content) and is kept as the idealized contrast
for the claims it does affect.  Definitions are translated from
`src/core/subtitle_manager.py`, `src/core/download_manager.py` and
`src/core/task_manager.py` (the duplicated top-level modules
`src/subtitle_parser.py` / `src/subtitle_downloader.py` contain the same
logic where the claims touch them; divergences are noted at the definition
concerned).
-/

set_option maxRecDepth 10000

namespace V2T

attribute [local semireducible] Rat.add Rat.mul Rat.sub Rat.inv

/-- Python strings, embedded as lists of characters. -/
abbrev PyStr := List Char

/-- ASCII whitespace as recognised by Python `str.strip()` / regex `\s`
(the inputs handled by the subtitle code are ASCII at the points where
whitespace matters). -/
def isPySpace (c : Char) : Bool :=
  c = ' ' || c = '\t' || c = '\n' || c = '\r' || c = Char.ofNat 11 || c = Char.ofNat 12

/-- `str.strip()`: drop leading and trailing whitespace. -/
def pyStrip (s : PyStr) : PyStr :=
  ((s.dropWhile isPySpace).reverse.dropWhile isPySpace).reverse

/-- `str.split(sep)` for a one-character separator (also models
`content.split('\n')`).  Always returns at least one piece. -/
def splitOnC (sep : Char) : PyStr → List PyStr
  | [] => [[]]
  | c :: r =>
    if c = sep then [] :: splitOnC sep r
    else
      match splitOnC sep r with
      | [] => [[c]]
      | g :: gs => (c :: g) :: gs

/-- `s.startswith(p)` (arguments: string, then pattern). -/
def pyStartsWith : PyStr → PyStr → Bool
  | _, [] => true
  | [], _ :: _ => false
  | c :: cs, p :: ps => c = p && pyStartsWith cs ps

/-- `'-->' in line`: the arrow token occurs as a substring. -/
def hasArrow : PyStr → Bool
  | '-' :: '-' :: '>' :: _ => true
  | _ :: r => hasArrow r
  | [] => false

/-- Numeric value of a decimal digit character. -/
def digVal (c : Char) : ℕ := c.toNat - 48

/-- Value of a (most-significant-first) decimal digit string. -/
def decVal (s : PyStr) : ℕ := Nat.ofDigits 10 ((s.map digVal).reverse)

/-- Auxiliary for `natToDec`; the fuel argument only serves structural
recursion (`n` itself is always enough fuel since `n / 10 < n` for `n ≠ 0`). -/
def natToDecAux : ℕ → ℕ → PyStr
  | _, 0 => []
  | 0, _ + 1 => []
  | fuel + 1, n + 1 => natToDecAux fuel ((n + 1) / 10) ++ [Nat.digitChar ((n + 1) % 10)]

/-- Decimal rendering of a natural number, most significant digit first.
(`natToDec 0 = []`; every use below zero-pads, matching `f"{n:02d}"`.) -/
def natToDec (n : ℕ) : PyStr := natToDecAux n n

/-- Left-pad with `'0'` to width `w`. -/
def zeroPad (w : ℕ) (s : PyStr) : PyStr := List.replicate (w - s.length) '0' ++ s

/-- `f"{z:0wd}"`: sign-aware zero padding as in Python format specs. -/
def intToDecPad (w : ℕ) (z : ℤ) : PyStr :=
  if z < 0 then '-' :: zeroPad (w - 1) (natToDec z.natAbs) else zeroPad w (natToDec z.toNat)

/-- Python `int(str)` on an unsigned ASCII digit string. -/
def pyNatStr (s : PyStr) : Option ℕ :=
  if !s.isEmpty && s.all Char.isDigit then some (decVal s) else none

/-- Python `int(str)`, modelled on ASCII digit strings with an optional
sign (the only forms the subtitle code can feed it); anything else is a
`ValueError`, i.e. `none`. -/
def pyInt (s : PyStr) : Option ℤ :=
  match s with
  | [] => none
  | c :: r =>
    if c = '-' then (pyNatStr r).map (fun n => -(Int.ofNat n))
    else if c = '+' then (pyNatStr r).map (fun n => Int.ofNat n)
    else (pyNatStr (c :: r)).map (fun n => Int.ofNat n)

/-- Python `float(str)` on an unsigned decimal literal `digits[.digits]`,
`.digits` or `digits.` (no exponent/inf forms — the subtitle code never
produces them); the value is exact, carried as a rational. -/
def pyFloatUnsigned (s : PyStr) : Option ℚ :=
  match splitOnC '.' s with
  | [a] => if !a.isEmpty && a.all Char.isDigit then some (decVal a) else none
  | [a, b] =>
    if (!a.isEmpty || !b.isEmpty) && a.all Char.isDigit && b.all Char.isDigit then
      some ((decVal a : ℚ) + (decVal b : ℚ) / 10 ^ b.length)
    else none
  | _ => none

/-- Python `float(str)` with an optional sign. -/
def pyFloat (s : PyStr) : Option ℚ :=
  match s with
  | '-' :: r => (pyFloatUnsigned r).map (fun q => -q)
  | '+' :: r => pyFloatUnsigned r
  | _ => pyFloatUnsigned s

/-- The `try` body of `SubtitleManager._parse_timestamp` (lines 256–278):
split on `':'` and combine `HH:MM:SS.mmm` / `MM:SS.mmm` / else `float(parts[0])`;
`none` is the `ValueError` case. -/
def parseTimestampCore (s : PyStr) : Option ℚ :=
  match splitOnC ':' (pyStrip s) with
  | [p0, p1, p2] =>
    match pyInt p0, pyInt p1, pyFloat p2 with
    | some h, some m, some sec => some ((h : ℚ) * 3600 + (m : ℚ) * 60 + sec)
    | _, _, _ => none
  | [p0, p1] =>
    match pyInt p0, pyFloat p1 with
    | some m, some sec => some ((m : ℚ) * 60 + sec)
    | _, _ => none
  | p0 :: _ => pyFloat p0
  | [] => none

/-- `SubtitleManager._parse_timestamp`: total — the `except` clause turns a
failed component parse into `0.0`. -/
def parseTimestamp (s : PyStr) : ℚ := (parseTimestampCore s).getD 0

/-- Python float `%` for a positive divisor: `a - b * floor(a / b)`. -/
def pyMod (a b : ℚ) : ℚ := a - b * ⌊a / b⌋

/-- Shared body of `_format_timestamp_vtt` / `_format_timestamp_srt` /
`_format_timestamp_for_text` (lines 391–416): the four numeric fields.
`int(x)` truncates toward zero; every field it is applied to here is the
result of a floor division or a `%` with positive divisor, hence
nonnegative-or-integral, so `Int.floor` is the faithful embedding. -/
def tsFields (seconds : ℚ) : ℤ × ℤ × ℤ × ℤ :=
  (⌊seconds / 3600⌋, ⌊pyMod seconds 3600 / 60⌋, ⌊pyMod seconds 60⌋,
    ⌊pyMod seconds 1 * 1000⌋)

/-- `f"{hours:02d}:{minutes:02d}:{secs:02d}{sep}{millis:03d}"`. -/
def renderTs (sep : Char) (seconds : ℚ) : PyStr :=
  let f := tsFields seconds
  intToDecPad 2 f.1 ++ ':' :: intToDecPad 2 f.2.1 ++ ':' ::
    intToDecPad 2 f.2.2.1 ++ sep :: intToDecPad 3 f.2.2.2

/-- `SubtitleManager._format_timestamp_vtt` (dot separator). -/
def formatTimestampVtt (seconds : ℚ) : PyStr := renderTs '.' seconds

/-- `SubtitleManager._format_timestamp_srt` (comma separator). -/
def formatTimestampSrt (seconds : ℚ) : PyStr := renderTs ',' seconds

/-- `SubtitleManager._format_timestamp_for_text` (dot separator, same body). -/
def formatTimestampForText (seconds : ℚ) : PyStr := renderTs '.' seconds

/-- A nonempty all-digit component. -/
def isIntPart (p : PyStr) : Bool := !p.isEmpty && p.all Char.isDigit

/-- A seconds component `SS.mmm`: digits, dot, exactly three digits. -/
def isSecPart (p : PyStr) : Bool :=
  match splitOnC '.' p with
  | [a, b] => !a.isEmpty && a.all Char.isDigit && b.length == 3 && b.all Char.isDigit
  | _ => false

/-- The syntactically valid timestamp shapes named by the spec:
`HH:MM:SS.mmm`, `MM:SS.mmm`, `SS.mmm` (digit components, three fractional
digits; component widths unconstrained). -/
def ValidTimestamp (s : PyStr) : Bool :=
  match splitOnC ':' s with
  | [p] => isSecPart p
  | [m, p] => isIntPart m && isSecPart p
  | [h, m, p] => isIntPart h && isIntPart m && isSecPart p
  | _ => false

/-- Canonical zero-padded `HH:MM:SS.mmm`: three colon-separated fields, the
minute and second fields exactly two digits and below 60, three millisecond
digits, hours at least two digits and unbounded. -/
def CanonicalTimestamp (s : PyStr) : Bool :=
  match splitOnC ':' s with
  | [h, m, p] =>
    isIntPart h && decide (2 ≤ h.length) && isIntPart m && m.length == 2 &&
      decide (decVal m < 60) &&
      (match splitOnC '.' p with
       | [a, b] =>
         isIntPart a && a.length == 2 && decide (decVal a < 60) &&
           b.length == 3 && b.all Char.isDigit
       | _ => false)
  | _ => false

/-- One subtitle cue.  The Python dict `{'start','end','text'}`; the `end`
key is named `stop` here because `end` is a Lean keyword. -/
structure Segment where
  start : ℚ
  stop : ℚ
  text : PyStr
deriving DecidableEq

/-- Character class `[\d:.]` of the VTT timestamp regex. -/
def vttClass (c : Char) : Bool := c.isDigit || c = ':' || c = '.'

/-- Character class `[\d:,]` of the SRT timestamp regex. -/
def srtClass (c : Char) : Bool := c.isDigit || c = ':' || c = ','

/-- `re.match(r'(CLS+)\s*-->\s*(CLS+)', line)` for a class `CLS` disjoint
from whitespace and `'-'`: with that disjointness the greedy, backtracking
regex engine settles on exactly the maximal-munch reading modelled here.
Returns the two capture groups. -/
def matchArrowWith (cls : Char → Bool) (l : PyStr) : Option (PyStr × PyStr) :=
  let g1 := l.takeWhile cls
  let r1 := l.dropWhile cls
  if g1.isEmpty then none
  else
    match r1.dropWhile isPySpace with
    | '-' :: '-' :: '>' :: r3 =>
      let g2 := (r3.dropWhile isPySpace).takeWhile cls
      if g2.isEmpty then none else some (g1, g2)
    | _ => none

/-- The condition of the text-collection loop in `_parse_vtt` (line 172):
`lines[i].strip() and '-->' not in lines[i]`. -/
def vttTextLine (l : PyStr) : Bool := !(pyStrip l).isEmpty && !hasArrow l

def wEBVTTtok : PyStr := ['W', 'E', 'B', 'V', 'T', 'T']

def nOTEtok : PyStr := ['N', 'O', 'T', 'E']

/-- Main loop of `SubtitleManager._parse_vtt` (lines 147–188) over the line
list: skip blank/header/comment lines; at an arrow line whose prefix matches
the timestamp regex, collect the following nonblank non-arrow lines as the
space-joined cue text (a cue with no text lines is dropped), and resume at
the boundary line. -/
def parseVttLinesF : ℕ → List PyStr → List Segment
  | 0, _ => []
  | _, [] => []
  | fuel + 1, l :: rest =>
    let line := pyStrip l
    if line.isEmpty || pyStartsWith line wEBVTTtok || pyStartsWith line nOTEtok then
      parseVttLinesF fuel rest
    else if hasArrow line then
      match matchArrowWith vttClass line with
      | some g =>
        let textLines := (rest.takeWhile vttTextLine).map pyStrip
        let rest' := rest.dropWhile vttTextLine
        if textLines.isEmpty then parseVttLinesF fuel rest'
        else
          { start := parseTimestamp (pyStrip g.1), stop := parseTimestamp (pyStrip g.2),
            text := List.intercalate [' '] textLines } :: parseVttLinesF fuel rest'
      | none => parseVttLinesF fuel rest
    else parseVttLinesF fuel rest

/-- `SubtitleManager._parse_vtt` on whole content.  The fuel argument of
`parseVttLinesF` only serves structural recursion: every recursive call
drops at least one line, so `lines.length` fuel is never exhausted. -/
def parseVtt (content : PyStr) : List Segment :=
  let lines := splitOnC '\n' content
  parseVttLinesF lines.length lines

/-- Position of the last `'\n'` inside the maximal whitespace prefix of the
string, if the prefix contains one. -/
def lastNlInSpaceRun : PyStr → Option ℕ
  | [] => none
  | c :: r =>
    if isPySpace c then
      match lastNlInSpaceRun r with
      | some j => some (j + 1)
      | none => if c = '\n' then some 0 else none
    else none

/-- Index (in `r`) just past the last `'\n'` inside the maximal whitespace
prefix of `r`, if the prefix contains one. -/
def blankSepEnd (r : PyStr) : Option ℕ :=
  (lastNlInSpaceRun r).map (· + 1)

/-- `re.split(r'\n\s*\n', content)`: a separator match starts at a `'\n'`
and extends through the last `'\n'` of the whitespace run that follows it
(the greedy `\s*` backtracks to end on a newline); matches are found
leftmost-first and are non-overlapping. -/
def splitBlankF : ℕ → PyStr → List PyStr
  | _, [] => [[]]
  | 0, s => [s]
  | fuel + 1, c :: r =>
    if c = '\n' then
      match blankSepEnd r with
      | some p => [] :: splitBlankF fuel (r.drop p)
      | none =>
        match splitBlankF fuel r with
        | [] => [[c]]
        | g :: gs => (c :: g) :: gs
    else
      match splitBlankF fuel r with
      | [] => [[c]]
      | g :: gs => (c :: g) :: gs

def splitBlank (s : PyStr) : List PyStr := splitBlankF s.length s

/-- First line of the block containing the arrow token, and the lines after
it (the `for i, line in enumerate(lines)` search in `_parse_srt`). -/
def findArrow : List PyStr → Option (PyStr × List PyStr)
  | [] => none
  | l :: r => if hasArrow l then some (l, r) else findArrow r

/-- `.replace(',', '.')` on a timestamp string. -/
def commaToDot (s : PyStr) : PyStr := s.map (fun c => if c = ',' then '.' else c)

/-- One block of `SubtitleManager._parse_srt` (lines 197–228): need at least
two lines, find the arrow line, match the comma-class timestamp regex against
it, convert commas to dots, and space-join the stripped nonblank lines after
the arrow line; any failure drops the block silently. -/
def parseSrtBlock (block : PyStr) : Option Segment :=
  let lines := splitOnC '\n' (pyStrip block)
  if lines.length < 2 then none
  else
    match findArrow lines with
    | none => none
    | some (tsLine, textLines) =>
      if textLines.isEmpty then none
      else
        match matchArrowWith srtClass tsLine with
        | none => none
        | some g =>
          let text := List.intercalate [' ']
            (((textLines.map pyStrip).filter (fun t => !t.isEmpty)))
          if text.isEmpty then none
          else some
            { start := parseTimestamp (commaToDot (pyStrip g.1)),
              stop := parseTimestamp (commaToDot (pyStrip g.2)), text := text }

/-- `SubtitleManager._parse_srt` (lines 190–230): split on blank-line
separators and parse each block. -/
def parseSrt (content : PyStr) : List Segment :=
  (splitBlank content).filterMap parseSrtBlock

/-- The skip condition of `_parse_generic` (lines 240–244): blank, arrow
line, pure digit index, or `WEBVTT`/`NOTE` token. -/
def genericSkips (line : PyStr) : Bool :=
  line.isEmpty || hasArrow line || (!line.isEmpty && line.all Char.isDigit) ||
    pyStartsWith line wEBVTTtok || pyStartsWith line nOTEtok

/-- `SubtitleManager._parse_generic` (lines 232–254), identical to
`parse_generic` in `src/subtitle_parser.py`: every stripped line that is not
skipped and is longer than two characters becomes a zero-duration segment. -/
def parseGenericLines : List PyStr → List Segment
  | [] => []
  | l :: r =>
    let line := pyStrip l
    if genericSkips line then parseGenericLines r
    else if 2 < line.length then
      { start := 0, stop := 0, text := line } :: parseGenericLines r
    else parseGenericLines r

/-- `SubtitleManager._parse_generic` on whole content. -/
def parseGeneric (content : PyStr) : List Segment :=
  parseGenericLines (splitOnC '\n' content)

/-- `re.sub(r'<[^>]+>', '', text)`: delete every `'<'`-to-`'>'` span with a
nonempty `'>'`-free inside, scanning left to right, non-overlapping.  A
`'<'` with no such closing `'>'` (or with nothing between) is kept and
scanning resumes at the next character. -/
def stripTagsF : ℕ → PyStr → PyStr
  | _, [] => []
  | 0, s => s
  | fuel + 1, c :: r =>
    if c = '<' then
      match r.dropWhile (fun d => d ≠ '>') with
      | '>' :: r' =>
        if (r.takeWhile (fun d => d ≠ '>')).isEmpty then c :: stripTagsF fuel r
        else stripTagsF fuel r'
      | _ => c :: stripTagsF fuel r
    else c :: stripTagsF fuel r

def stripTags (s : PyStr) : PyStr := stripTagsF s.length s

/-- Scan for the first `"]:"`; the skipped characters are matched by the
non-greedy `.*?`, which cannot cross a newline.  Returns what follows. -/
def afterBracketColon : PyStr → Option PyStr
  | ']' :: ':' :: r => some r
  | '\n' :: _ => none
  | _ :: r => afterBracketColon r
  | [] => none

/-- `re.sub(r'^\[.*?\]:\s*', '', text)`: one leading `[Name]:` label (plus
trailing whitespace) removed, only at the start of the text. -/
def stripSpeakerLatin (s : PyStr) : PyStr :=
  match s with
  | '[' :: r =>
    match afterBracketColon r with
    | some rest => rest.dropWhile isPySpace
    | none => s
  | _ => s

/-- Scan for the first full-width `"】："`. -/
def afterCJKBracketColon : PyStr → Option PyStr
  | '】' :: '：' :: r => some r
  | '\n' :: _ => none
  | _ :: r => afterCJKBracketColon r
  | [] => none

/-- `re.sub(r'^【.*?】：\s*', '', text)`: one leading full-width speaker
label removed, only at the start of the text. -/
def stripSpeakerCJK (s : PyStr) : PyStr :=
  match s with
  | '【' :: r =>
    match afterCJKBracketColon r with
    | some rest => rest.dropWhile isPySpace
    | none => s
  | _ => s

/-- `str.replace(pat, repl)`: replace all non-overlapping occurrences, left
to right (callers below always pass a nonempty `pat`). -/
def replaceAllF (pat repl : PyStr) : ℕ → PyStr → PyStr
  | _, [] => []
  | 0, s => s
  | fuel + 1, c :: r =>
    if !pat.isEmpty && pyStartsWith (c :: r) pat then
      repl ++ replaceAllF pat repl fuel ((c :: r).drop pat.length)
    else c :: replaceAllF pat repl fuel r

def replaceAll (pat repl s : PyStr) : PyStr := replaceAllF pat repl s.length s

def eNbsp : PyStr := ['&', 'n', 'b', 's', 'p', ';']
def eAmp : PyStr := ['&', 'a', 'm', 'p', ';']
def eLt : PyStr := ['&', 'l', 't', ';']
def eGt : PyStr := ['&', 'g', 't', ';']
def eQuot : PyStr := ['&', 'q', 'u', 'o', 't', ';']

/-- The per-segment cleaning of `to_text` (lines 299–317) — HTML tags,
one leading speaker label of either form, the five HTML entities — followed
by `strip()`. -/
def cleanText (t : PyStr) : PyStr :=
  let t := stripTags t
  let t := stripSpeakerLatin t
  let t := stripSpeakerCJK t
  let t := replaceAll eNbsp [' '] t
  let t := replaceAll eAmp ['&'] t
  let t := replaceAll eLt ['<'] t
  let t := replaceAll eGt ['>'] t
  let t := replaceAll eQuot ['"'] t
  pyStrip t

/-- `cleaned_segments` of `to_text` (lines 299–323): clean each text, drop
segments whose text became empty, keep `start`/`end` unchanged. -/
def cleanSegments (segs : List Segment) : List Segment :=
  segs.filterMap fun seg =>
    let t := cleanText seg.text
    if t.isEmpty then none else some { start := seg.start, stop := seg.stop, text := t }

/-- The `deduped_segments` loop of `to_text` (lines 326–331): drop a segment
whose text equals the previously kept text (`prev_text` starts as `None`). -/
def dedupLoop (prev : Option PyStr) : List Segment → List Segment
  | [] => []
  | s :: r => if some s.text = prev then dedupLoop prev r else s :: dedupLoop (some s.text) r

/-- Adjacent-duplicate collapsing used by `to_text`. -/
def dedupSegments (segs : List Segment) : List Segment := dedupLoop none segs

/-- One step of the `result_lines` loop of `to_text` (lines 334–351),
plain-text branch (`with_timestamps=False`): append a blank paragraph marker
when the gap from the previous end exceeds the threshold and output already
exists, then append the segment text. -/
def toTextStep (pg : ℚ) (st : List PyStr × ℚ) (seg : Segment) : List PyStr × ℚ :=
  let lines := st.1
  let lines := if pg < seg.start - st.2 ∧ lines ≠ [] then lines ++ [[]] else lines
  (lines ++ [seg.text], seg.stop)

/-- The `result_lines` built by `to_text` (plain-text branch) over a segment
sequence: `prev_end` starts at `0.0`, `paragraph_gap` defaults to `5.0`.
(The subsequent join/whitespace-normalisation of lines 354–358 and the
timestamped branch are not needed by the claims about marker placement.) -/
def toTextLines (pg : ℚ) (segs : List Segment) : List PyStr :=
  (segs.foldl (toTextStep pg) ([], 0)).1

/-- Spec-side characterisation of paragraph-marker placement for the
non-first segments: a marker (empty line) appears immediately before a
segment's text exactly when its start minus the previous segment's end
exceeds the threshold. -/
def gapLinesFrom (pg : ℚ) (prevEnd : ℚ) : List Segment → List PyStr
  | [] => []
  | s :: r =>
    (if pg < s.start - prevEnd then [([] : PyStr)] else []) ++ s.text :: gapLinesFrom pg s.stop r

def arrowSep : PyStr := [' ', '-', '-', '>', ' ']

/-- The `lines` list built by `SubtitleManager.to_srt` (lines 360–374) for a
nonempty segment list: per segment a 1-based index line, a comma-style arrow
line, the raw segment text, and a blank line.  (`to_srt` returns the empty
string for an empty segment list and otherwise joins these lines with
newlines.) -/
def srtChunk (p : ℕ × Segment) : List PyStr :=
  [natToDec p.1, formatTimestampSrt p.2.start ++ arrowSep ++ formatTimestampSrt p.2.stop,
    p.2.text, []]

def toSrtLines (segs : List Segment) : List PyStr :=
  (List.enumFrom 1 segs).flatMap srtChunk

/-- The `lines` list built by `SubtitleManager.to_vtt` (lines 376–389) for a
nonempty segment list: the `WEBVTT` header, a blank line, then per segment a
dot-style arrow line, the raw segment text, and a blank line. -/
def vttChunk (seg : Segment) : List PyStr :=
  [formatTimestampVtt seg.start ++ arrowSep ++ formatTimestampVtt seg.stop, seg.text, []]

def toVttBody (segs : List Segment) : List PyStr :=
  segs.flatMap vttChunk

def toVttLines (segs : List Segment) : List PyStr :=
  [wEBVTTtok, []] ++ toVttBody segs

/-- One tier block of the automatic selection in
`DownloadTask.download_subtitle` (lines 301–321): walk the priority list and
take the first language present in the tier, else the tier's first entry; an
empty tier selects nothing. -/
def pickFromTier (tier priority : List PyStr) (isAuto : Bool) : Option (PyStr × Bool) :=
  if !tier.isEmpty then
    match priority.find? (fun l => decide (l ∈ tier)) with
    | some l => some (l, isAuto)
    | none => some (tier.headI, isAuto)
  else none

/-- The subtitle-selection logic of `DownloadTask.download_subtitle`
(lines 274–325): catalog empty → `None`; a pinned language is honoured among
manual tracks first, then automatic ones, and otherwise a warning is logged
and selection stays empty; without a pin, the manual tier is tried first
(unless `prefer_auto`), then the automatic tier. -/
def selectSubtitle (language : Option PyStr) (preferAuto : Bool)
    (manual auto priority : List PyStr) : Option (PyStr × Bool) :=
  if manual = [] ∧ auto = [] then none
  else
    match language with
    | some lang =>
      if lang ∈ manual then some (lang, false)
      else if lang ∈ auto then some (lang, true)
      else none
    | none =>
      match if preferAuto then none else pickFromTier manual priority false with
      | some r => some r
      | none => pickFromTier auto priority true

/-- `TaskStatus` of `src/core/task_manager.py` (lines 24–35). -/
inductive TaskStatus
  | idle
  | fetchingInfo
  | checkingSubtitle
  | downloadingSubtitle
  | downloadingAudio
  | transcribing
  | parsingSubtitle
  | completed
  | cancelled
  | error
deriving DecidableEq

/-- The subtitle catalog part of `get_video_info`'s result. -/
structure VideoInfo where
  manual : List PyStr
  auto : List PyStr
deriving DecidableEq

/-- Environment of one `_run_task` run: the collaborators' outcomes and the
instant at which the caller's `cancel()` set the shared flag.  Poll points
and collaborator calls are placed on an abstract increasing clock (the step
indices used in `runTask`); `cancelAt = some k` means the flag reads true at
every instant `≥ k`. -/
structure TaskEnv where
  cancelAt : Option ℕ
  info : Option VideoInfo
  subtitleResult : Bool
  loadOk : Bool
  saveOk : Bool
  audioOk : Bool
  transcribeOk : Bool
  writeOk : Bool
deriving DecidableEq

/-- The cancelled flag as read at instant `t`. -/
def cancelledAt (e : TaskEnv) (t : ℕ) : Bool :=
  match e.cancelAt with
  | none => false
  | some k => decide (k ≤ t)

/-- Outcome of one `_run_task` run: the ordered status transitions, the
terminal status, whether an output artifact file was written, the instant of
the last `if self._cancelled` poll executed, and the instant the run
returned. -/
structure RunResult where
  trace : List TaskStatus
  final : TaskStatus
  artifactWritten : Bool
  lastPoll : ℕ
  endTime : ℕ
deriving DecidableEq

/-- The audio/Whisper fallback path of `_run_task` (lines 287–361):
`DOWNLOADING_AUDIO`, `download_audio` (which itself returns `None` when the
flag is set at its entry or raised inside its progress hook), a poll, the
audio-failure check, `TRANSCRIBING`, `transcribe`, a poll, the
transcription-failure check, the final file write (an exception there is
`ERROR`), then `COMPLETED`.  Clock: `download_audio` runs at 8, poll at 9,
`transcribe` at 10, poll at 11, write at 12, return at 13. -/
def runAudioPath (e : TaskEnv) (tr : List TaskStatus) : RunResult :=
  let tr := tr ++ [TaskStatus.downloadingAudio]
  let audioOk := if cancelledAt e 8 then false else e.audioOk
  if cancelledAt e 9 then
    ⟨tr ++ [TaskStatus.cancelled], TaskStatus.cancelled, false, 9, 9⟩
  else if !audioOk then
    ⟨tr ++ [TaskStatus.error], TaskStatus.error, false, 9, 9⟩
  else
    let tr := tr ++ [TaskStatus.transcribing]
    if cancelledAt e 11 then
      ⟨tr ++ [TaskStatus.cancelled], TaskStatus.cancelled, false, 11, 11⟩
    else if !e.transcribeOk then
      ⟨tr ++ [TaskStatus.error], TaskStatus.error, false, 11, 11⟩
    else if !e.writeOk then
      ⟨tr ++ [TaskStatus.error], TaskStatus.error, false, 11, 12⟩
    else
      ⟨tr ++ [TaskStatus.completed], TaskStatus.completed, true, 11, 13⟩

/-- `TaskManager._run_task` (lines 169–367): `FETCHING_INFO`,
`get_video_info` (at 1), poll (at 2), metadata-failure check; when
`force_whisper` is false: `CHECKING_SUBTITLE`, and if the catalog is
nonempty `DOWNLOADING_SUBTITLE` with `download_subtitle` (at 5, which
returns `None` when the flag is already set at its entry), poll (at 6), and
on a subtitle result `PARSING_SUBTITLE` with `load` and `save` (at 7; a
successful save is the written artifact and the run completes, while a
failed `load`/`save` or absent subtitle result falls through to the
audio path). -/
def runTask (forceWhisper : Bool) (e : TaskEnv) : RunResult :=
  let tr := [TaskStatus.fetchingInfo]
  if cancelledAt e 2 then
    ⟨tr ++ [TaskStatus.cancelled], TaskStatus.cancelled, false, 2, 2⟩
  else
    match e.info with
    | none => ⟨tr ++ [TaskStatus.error], TaskStatus.error, false, 2, 3⟩
    | some info =>
      if forceWhisper then runAudioPath e tr
      else
        let tr := tr ++ [TaskStatus.checkingSubtitle]
        if info.manual = [] ∧ info.auto = [] then runAudioPath e tr
        else
          let tr := tr ++ [TaskStatus.downloadingSubtitle]
          let subRes := if cancelledAt e 5 then false else e.subtitleResult
          if cancelledAt e 6 then
            ⟨tr ++ [TaskStatus.cancelled], TaskStatus.cancelled, false, 6, 6⟩
          else if subRes then
            let tr := tr ++ [TaskStatus.parsingSubtitle]
            if e.loadOk && e.saveOk then
              ⟨tr ++ [TaskStatus.completed], TaskStatus.completed, true, 6, 7⟩
            else runAudioPath e tr
          else runAudioPath e tr

/-! Concrete inputs used by counterexamples and witnesses. -/

/-- A WebVTT document whose single cue has its end timestamp before its
start timestamp. -/
def vttDecreasingCue : PyStr :=
  ['W', 'E', 'B', 'V', 'T', 'T', '\n', '\n', '0', '0', ':', '0', '0', ':', '0', '5', '.', '0',
    '0', '0', ' ', '-', '-', '>', ' ', '0', '0', ':', '0', '0', ':', '0', '1', '.', '0', '0',
    '0', '\n', 'H', 'i']

/-- A WebVTT document with one ordinary cue. -/
def vttSmall : PyStr :=
  ['W', 'E', 'B', 'V', 'T', 'T', '\n', '\n', '0', '0', ':', '0', '0', ':', '0', '1', '.', '0',
    '0', '0', ' ', '-', '-', '>', ' ', '0', '0', ':', '0', '0', ':', '0', '2', '.', '0', '0',
    '0', '\n', 'H', 'i']

/-- An environment whose cancel request arrives at instant 12, after the
last poll (11) of a successful forced-transcription run. -/
def lateCancelEnv : TaskEnv :=
  { cancelAt := some 12, info := some ⟨[], []⟩, subtitleResult := false, loadOk := false,
    saveOk := false, audioOk := true, transcribeOk := true, writeOk := true }

/-- An environment cancelled before the first poll. -/
def earlyCancelEnv : TaskEnv :=
  { cancelAt := some 0, info := some ⟨[], []⟩, subtitleResult := false, loadOk := false,
    saveOk := false, audioOk := true, transcribeOk := true, writeOk := true }

/-- A syntactically valid but non-canonical timestamp string, `1:2:3.456`. -/
def tsWitnessStr : PyStr := ['1', ':', '2', ':', '3', '.', '4', '5', '6']

/-- Two adjacent segments with byte-identical text. -/
def segsDupTexts : List Segment :=
  [{ start := 0, stop := 1, text := ['H', 'i'] }, { start := 1, stop := 2, text := ['H', 'i'] }]

/-- Inverse of `splitOnC`: re-join the pieces with the separator. -/
def joinSep (sep : Char) : List PyStr → PyStr
  | [] => []
  | [p] => p
  | p :: ps => p ++ sep :: joinSep sep ps

/-!
### IEEE-754 binary64 layer

CPython floats are IEEE-754 binary64.  A finite double is carried as its
exact rational value; each float instruction is the exact rational
operation followed by `rnd53` — rounding to 53 significant bits, to
nearest, ties to even: the rounding of the hardware, of CPython's
int→float conversion (`PyLong_AsDouble`), and of `strtod`.  The exponent
range is unbounded below (every value the subtitle pipeline reaches is `0`
or at least `2^-300`, far above the subnormal threshold `2^-1022`, so
subnormal rounding never arises) and capped at `2^1024` above: a float
operation or a `strtod` whose rounded magnitude reaches `2^1024` overflows
to infinity, while the int→float conversion raises `OverflowError`
instead.
-/

/-- Round a rational to an integer: to nearest, ties to even. -/
def rhe (x : ℚ) : ℤ :=
  let f := ⌊x⌋
  let d := x - (f : ℚ)
  if d < 1/2 then f
  else if 1/2 < d then f + 1
  else if f % 2 = 0 then f else f + 1

/-- `⌊log₂ q⌋` of a positive rational by fuel descent towards `[1, 2)`;
fuel `9000` covers every magnitude between `2^-9000` and `2^9000`, far
beyond binary64's exponent range. -/
def flog2Aux : ℕ → ℚ → ℤ
  | 0, _ => 0
  | f + 1, q =>
    if 2 ≤ q then flog2Aux f (q / 2) + 1
    else if q < 1 then flog2Aux f (q * 2) - 1
    else 0

def flog2 (q : ℚ) : ℤ := flog2Aux 9000 q

/-- Round a positive rational to 53 significant bits (nearest, ties to
even): scale into `[2^52, 2^53)`, round to an integer significand, scale
back. -/
def rnd53Pos (q : ℚ) : ℚ :=
  (rhe (q / (2 : ℚ) ^ (flog2 q - 52)) : ℚ) * (2 : ℚ) ^ (flog2 q - 52)

/-- Binary64 rounding of any rational (round to nearest, ties to even). -/
def rnd53 (q : ℚ) : ℚ :=
  if q = 0 then 0 else if q < 0 then -rnd53Pos (-q) else rnd53Pos q

/-- `2^1024`, the smallest magnitude that no longer fits a binary64
(written as a `ℕ` power so that the kernel can evaluate it fast). -/
def dblMax : ℚ := ((2 ^ 1024 : ℕ) : ℚ)

/-- `int(x)` on a finite double: truncate toward zero. -/
def truncD (q : ℚ) : ℤ := if 0 ≤ q then ⌊q⌋ else ⌈q⌉

/-- C `fmod(a, b)`: the exact remainder `a - b * trunc(a / b)` — IEEE
`fmod` is always exact, it introduces no rounding. -/
def fmodC (a b : ℚ) : ℚ := a - b * (truncD (a / b) : ℚ)

/-- One rounded binary64 addition (none of the formatter's intermediates
can overflow: each is bounded by one of its inputs or by `1000`). -/
def fAdd (a b : ℚ) : ℚ := rnd53 (a + b)

/-- One rounded binary64 subtraction. -/
def fSub (a b : ℚ) : ℚ := rnd53 (a - b)

/-- One rounded binary64 multiplication. -/
def fMul (a b : ℚ) : ℚ := rnd53 (a * b)

/-- One rounded binary64 division. -/
def fDiv (a b : ℚ) : ℚ := rnd53 (a / b)

/-- Python float `%` (CPython `float_rem`): `fmod`, then a nonzero result
whose sign differs from the divisor's is fixed up by one float addition of
the divisor; a zero result is `±0`, i.e. `0` on the rational carrier. -/
def pyModF (a b : ℚ) : ℚ :=
  if fmodC a b ≠ 0 then
    (if (decide (b < 0) != decide (fmodC a b < 0)) = true then fAdd (fmodC a b) b
     else fmodC a b)
  else 0

/-- The quotient snap of CPython `float_divmod`: `floor(div)` (exact on a
double), plus one when the rounded difference `div - floor(div)` exceeds a
half; a zero quotient is `±0`, i.e. `0` here. -/
def snapQ (dv : ℚ) : ℚ :=
  if dv ≠ 0 then
    (if 1/2 < fSub dv ((⌊dv⌋ : ℤ) : ℚ) then fAdd ((⌊dv⌋ : ℤ) : ℚ) 1 else ((⌊dv⌋ : ℤ) : ℚ))
  else 0

/-- Python float `//` (CPython `float_divmod`): exact `fmod`; quotient
`(a - mod) / b` by one rounded subtraction and one rounded division, minus
one float `1.0` when the remainder's sign disagreed with the divisor's;
then snapped to an integral value. -/
def pyFloorDivF (a b : ℚ) : ℚ :=
  if fmodC a b ≠ 0 ∧ (decide (b < 0) != decide (fmodC a b < 0)) = true then
    snapQ (fSub (fDiv (fSub a (fmodC a b)) b) 1)
  else snapQ (fDiv (fSub a (fmodC a b)) b)

/-- The four fields of `_format_timestamp_vtt` / `_format_timestamp_srt` /
`_format_timestamp_for_text` under binary64 arithmetic: `int(x // 3600)`,
`int((x % 3600) // 60)`, `int(x % 60)`, `int((x % 1) * 1000)`.
(`tsFields` is the exact-rational idealization of the same lines.) -/
def tsFieldsF (seconds : ℚ) : ℤ × ℤ × ℤ × ℤ :=
  (truncD (pyFloorDivF seconds 3600), truncD (pyFloorDivF (pyModF seconds 3600) 60),
    truncD (pyModF seconds 60), truncD (fMul (pyModF seconds 1) 1000))

/-- `f"{hours:02d}:{minutes:02d}:{secs:02d}{sep}{millis:03d}"` over the
binary64 fields. -/
def renderTsF (sep : Char) (seconds : ℚ) : PyStr :=
  let f := tsFieldsF seconds
  intToDecPad 2 f.1 ++ ':' :: intToDecPad 2 f.2.1 ++ ':' ::
    intToDecPad 2 f.2.2.1 ++ sep :: intToDecPad 3 f.2.2.2

/-- `SubtitleManager._format_timestamp_vtt` under binary64 arithmetic. -/
def formatTimestampVttF (seconds : ℚ) : PyStr := renderTsF '.' seconds

/-- `SubtitleManager._format_timestamp_srt` under binary64 arithmetic. -/
def formatTimestampSrtF (seconds : ℚ) : PyStr := renderTsF ',' seconds

/-- `SubtitleManager._format_timestamp_for_text` under binary64
arithmetic. -/
def formatTimestampForTextF (seconds : ℚ) : PyStr := renderTsF '.' seconds

/-- A CPython float reached by the timestamp parser: finite, or infinite
(`float` of an overflowing decimal literal).  NaN is unreachable; the
carrier does not track an infinity's sign — no theorem below depends on
it, and every input the theorems quantify over stays finite. -/
inductive Dbl where
  | fin (q : ℚ)
  | inf
deriving DecidableEq

/-- `float(string)` (CPython `strtod`): correctly rounded to binary64; a
decimal magnitude whose rounding reaches `2^1024` yields infinity — e.g.
`float('1e400') == inf` — never an exception beyond `ValueError`
(`none`). -/
def strToDbl (s : PyStr) : Option Dbl :=
  (pyFloat s).map fun q => if dblMax ≤ |rnd53 q| then Dbl.inf else Dbl.fin (rnd53 q)

/-- CPython `PyLong_AsDouble` — the int→float conversion performed when an
`int` operand meets a `float`: round to nearest-even, raising
`OverflowError` (`none`) when the rounded magnitude reaches `2^1024`
(`float(2^1024 - 2^970)` raises; `float(2^1024 - 2^970 - 1)` does not). -/
def intToDbl (n : ℤ) : Option ℚ :=
  if dblMax ≤ |rnd53 ((n : ℚ))| then none else some (rnd53 ((n : ℚ)))

/-- `int_sum + float` in Python: the int is converted first (possibly
raising `OverflowError` — also when the float is infinite), then one float
addition, overflowing to infinity. -/
def intAddDbl (n : ℤ) : Dbl → Option Dbl
  | Dbl.fin b =>
    (intToDbl n).map fun a =>
      if dblMax ≤ |rnd53 (a + b)| then Dbl.inf else Dbl.fin (rnd53 (a + b))
  | Dbl.inf => (intToDbl n).map fun _ => Dbl.inf

/-- The exceptions the body of `_parse_timestamp` can raise: `ValueError`
(and `IndexError`), which its `except` clause catches, and `OverflowError`
from the int→float conversion, which it does not. -/
inductive PyExc where
  | valErr
  | ovfErr
deriving DecidableEq

/-- The `try` body of `_parse_timestamp` (lines 256–278) under binary64
semantics; `parseTimestampCore` is its exact-rational idealization.  In
`hours * 3600 + minutes * 60 + seconds` the two products and their sum are
exact Python `int` arithmetic; the int sum then meets the float
`seconds`. -/
def parseTimestampCoreF (s : PyStr) : Except PyExc Dbl :=
  match splitOnC ':' (pyStrip s) with
  | [p0, p1, p2] =>
    match pyInt p0, pyInt p1, strToDbl p2 with
    | some h, some m, some sec =>
      match intAddDbl (h * 3600 + m * 60) sec with
      | some v => Except.ok v
      | none => Except.error PyExc.ovfErr
    | _, _, _ => Except.error PyExc.valErr
  | [p0, p1] =>
    match pyInt p0, strToDbl p1 with
    | some m, some sec =>
      match intAddDbl (m * 60) sec with
      | some v => Except.ok v
      | none => Except.error PyExc.ovfErr
    | _, _ => Except.error PyExc.valErr
  | p0 :: _ =>
    match strToDbl p0 with
    | some v => Except.ok v
    | none => Except.error PyExc.valErr
  | [] => Except.error PyExc.valErr

/-- `SubtitleManager._parse_timestamp` under binary64 semantics:
`ValueError`/`IndexError` are caught and give `0.0`; `OverflowError`
escapes (`Except.error ()`), aborting the caller's whole file parse. -/
def parseTimestampF (s : PyStr) : Except Unit Dbl :=
  match parseTimestampCoreF s with
  | Except.ok v => Except.ok v
  | Except.error PyExc.valErr => Except.ok (Dbl.fin 0)
  | Except.error PyExc.ovfErr => Except.error ()

/-- The finite value `_parse_timestamp` returns, when it returns one. -/
def parseDblVal (s : PyStr) : Option ℚ :=
  match parseTimestampF s with
  | Except.ok (Dbl.fin q) => some q
  | _ => none

/-- Parse, then format with the dot-style formatter (`[]` when the parse
raises or yields infinity). -/
def fmtOfParsed (s : PyStr) : PyStr :=
  match parseDblVal s with
  | some q => formatTimestampVttF q
  | none => []

/-- The valid timestamp `00:00:04.100`. -/
def ts4100 : PyStr := ['0', '0', ':', '0', '0', ':', '0', '4', '.', '1', '0', '0']

/-- The canonical string `00:00:04.099` — one millisecond earlier. -/
def ts4099 : PyStr := ['0', '0', ':', '0', '0', ':', '0', '4', '.', '0', '9', '9']

/-- The whole-second valid timestamp `01:02:03.000`. -/
def tsWholeSec : PyStr := ['0', '1', ':', '0', '2', ':', '0', '3', '.', '0', '0', '0']

/-- The timestamp string `1<309 zeros>:0:1.5`: shaped like `H:M:S.mmm`
with a 310-digit hour component, so `hours * 3600` is `3.6·10^312`, far
beyond the largest binary64 `≈ 1.8·10^308`. -/
def hugeTs : PyStr :=
  ('1' :: List.replicate 309 '0') ++ (':' :: (['0'] ++ (':' :: ['1', '.', '5'])))

/-!  ## Theorems  -/

theorem dedupLoop_sublist (l : List Segment) : ∀ prev, List.Sublist (dedupLoop prev l) l := by
  induction l with
  | nil => intro prev; simp [dedupLoop]
  | cons s r ih =>
    intro prev
    by_cases h : some s.text = prev
    · simp only [dedupLoop, if_pos h]
      exact (ih prev).cons s
    · simp only [dedupLoop, if_neg h]
      exact (ih (some s.text)).cons₂ s

theorem dedupLoop_head_ne (l : List Segment) :
    ∀ t u, (dedupLoop (some t) l).head? = some u → u.text ≠ t := by
  induction l with
  | nil => intro t u h; simp [dedupLoop] at h
  | cons s r ih =>
    intro t u h
    by_cases hs : s.text = t
    · rw [dedupLoop, if_pos (by rw [hs])] at h
      exact ih t u h
    · rw [dedupLoop, if_neg (by simpa using hs)] at h
      simp only [List.head?_cons, Option.some.injEq] at h
      rw [← h]
      exact hs

theorem dedupLoop_chain' (l : List Segment) :
    ∀ prev, List.Chain' (fun a b => a.text ≠ b.text) (dedupLoop prev l) := by
  induction l with
  | nil => intro prev; simp [dedupLoop]
  | cons s r ih =>
    intro prev
    by_cases h : some s.text = prev
    · simp only [dedupLoop, if_pos h]
      exact ih prev
    · simp only [dedupLoop, if_neg h]
      refine List.chain'_cons'.mpr ⟨?_, ih (some s.text)⟩
      intro u hu
      exact fun he => dedupLoop_head_ne r s.text u hu he.symm

/-- C6.  In the deduplicated sequence `to_text` builds (lines 325–331), no
two adjacent segments have identical text, and every kept segment is one of
the cleaned segments in order (consecutive byte-identical texts are
collapsed keeping the first occurrence). -/
theorem dedup_no_adjacent_duplicates (segs : List Segment) :
    List.Chain' (fun a b => a.text ≠ b.text) (dedupSegments (cleanSegments segs)) ∧
    List.Sublist (dedupSegments (cleanSegments segs)) (cleanSegments segs) :=
  ⟨dedupLoop_chain' (cleanSegments segs) none, dedupLoop_sublist (cleanSegments segs) none⟩

theorem toText_foldl_acc (pg : ℚ) (segs : List Segment) :
    ∀ acc pe, acc ≠ [] →
      (segs.foldl (toTextStep pg) (acc, pe)).1 = acc ++ gapLinesFrom pg pe segs := by
  induction segs with
  | nil => intro acc pe _; simp [gapLinesFrom]
  | cons s r ih =>
    intro acc pe hacc
    by_cases hgap : pg < s.start - pe
    · have hstep : toTextStep pg (acc, pe) s = (acc ++ [[]] ++ [s.text], s.stop) := by
        simp [toTextStep, hgap, hacc]
      simp only [List.foldl_cons, hstep]
      rw [ih (acc ++ [[]] ++ [s.text]) s.stop (by simp)]
      simp [gapLinesFrom, hgap]
    · have hstep : toTextStep pg (acc, pe) s = (acc ++ [s.text], s.stop) := by
        simp [toTextStep, hgap]
      simp only [List.foldl_cons, hstep]
      rw [ih (acc ++ [s.text]) s.stop (by simp)]
      simp [gapLinesFrom, hgap]

/-- C7.  In the `result_lines` built by `to_text`, a blank paragraph marker
precedes a segment's text exactly when that segment's start minus the
previously emitted segment's end exceeds the threshold and output already
exists; in particular the first emitted segment is never preceded by a
marker (even though `prev_end` starts at `0.0`). -/
theorem toText_paragraph_markers (pg : ℚ) :
    toTextLines pg [] = [] ∧
    ∀ s r, toTextLines pg (s :: r) = s.text :: gapLinesFrom pg s.stop r := by
  constructor
  · simp [toTextLines]
  · intro s r
    have hstep : toTextStep pg ([], 0) s = ([s.text], s.stop) := by
      simp [toTextStep]
    simp only [toTextLines, List.foldl_cons, hstep]
    rw [toText_foldl_acc pg r [s.text] s.stop (by simp)]
    simp

/-- C4, counterexample.  The two-character line `Hi` is non-blank, has no
arrow, is not a pure digit index and is not a `WEBVTT`/`NOTE` token, yet the
generic fallback parser produces no segment for it — refuting the claim
that every such line becomes a zero-duration segment. -/
theorem parseGeneric_short_line_dropped :
    parseGeneric ['H', 'i'] = [] ∧ genericSkips (pyStrip ['H', 'i']) = false ∧
      pyStrip ['H', 'i'] = ['H', 'i'] := by
  decide

theorem parseGenericLines_eq_filterMap (ls : List PyStr) :
    parseGenericLines ls = ls.filterMap (fun l =>
      let t := pyStrip l
      if genericSkips t = false ∧ 2 < t.length then
        some { start := 0, stop := 0, text := t }
      else none) := by
  induction ls with
  | nil => simp [parseGenericLines]
  | cons l r ih =>
    by_cases hs : genericSkips (pyStrip l)
    · simp [parseGenericLines, hs, ih]
    · by_cases hl : 2 < (pyStrip l).length
      · simp [parseGenericLines, hs, hl, ih]
      · simp [parseGenericLines, hs, hl, ih]

/-- C4, amended.  The generic fallback parser turns a stripped input line
into a zero-duration segment holding the stripped line exactly when the line
is non-blank, contains no arrow token, is not a pure digit index, is not a
`WEBVTT`/`NOTE` token, *and is longer than two characters*; every other line
yields nothing. -/
theorem parseGeneric_characterisation (content : PyStr) :
    parseGeneric content = (splitOnC '\n' content).filterMap (fun l =>
      let t := pyStrip l
      if genericSkips t = false ∧ 2 < t.length then
        some { start := 0, stop := 0, text := t }
      else none) :=
  parseGenericLines_eq_filterMap (splitOnC '\n' content)

theorem runAudioPath_trace_sub (e : TaskEnv) (tr : List TaskStatus) :
    ∀ s ∈ (runAudioPath e tr).trace,
      s ∈ tr ∨ s = TaskStatus.downloadingAudio ∨ s = TaskStatus.transcribing ∨
        s = TaskStatus.cancelled ∨ s = TaskStatus.error ∨ s = TaskStatus.completed := by
  intro s hs
  unfold runAudioPath at hs
  repeat' split at hs
  all_goals simp at hs
  all_goals try tauto
  all_goals repeat' split at hs
  all_goals simp at hs
  all_goals tauto

/-- C8.  A run started with `force_whisper=True` never sets the status to
`CHECKING_SUBTITLE`, `DOWNLOADING_SUBTITLE` or `PARSING_SUBTITLE`: those
assignments all sit inside the `if not force_whisper` branch of
`_run_task`. -/
theorem forceWhisper_skips_subtitle_statuses (e : TaskEnv) :
    ((runTask true e).trace.contains TaskStatus.checkingSubtitle) = false ∧
    ((runTask true e).trace.contains TaskStatus.downloadingSubtitle) = false ∧
    ((runTask true e).trace.contains TaskStatus.parsingSubtitle) = false := by
  suffices h : ∀ s ∈ (runTask true e).trace,
      s ≠ TaskStatus.checkingSubtitle ∧ s ≠ TaskStatus.downloadingSubtitle ∧
        s ≠ TaskStatus.parsingSubtitle by
    refine ⟨?_, ?_, ?_⟩
    · simpa using fun hm => (h _ hm).1 rfl
    · simpa using fun hm => (h _ hm).2.1 rfl
    · simpa using fun hm => (h _ hm).2.2 rfl
  intro s hs
  unfold runTask at hs
  split at hs
  · simp only [List.mem_append, List.mem_cons, List.not_mem_nil, or_false] at hs
    refine ⟨fun he => ?_, fun he => ?_, fun he => ?_⟩ <;> subst he <;> simp at hs
  · split at hs
    · simp only [List.mem_append, List.mem_cons, List.not_mem_nil, or_false] at hs
      refine ⟨fun he => ?_, fun he => ?_, fun he => ?_⟩ <;> subst he <;> simp at hs
    · simp only [if_true] at hs
      have hsub := runAudioPath_trace_sub e [TaskStatus.fetchingInfo] s hs
      refine ⟨fun he => ?_, fun he => ?_, fun he => ?_⟩ <;> subst he <;> simp at hsub

theorem runAudioPath_cancel (e : TaskEnv) (tr : List TaskStatus) (k : ℕ)
    (h1 : e.cancelAt = some k) (h2 : k ≤ (runAudioPath e tr).lastPoll) :
    (runAudioPath e tr).final = TaskStatus.cancelled ∧
      (runAudioPath e tr).artifactWritten = false := by
  have hca : ∀ t, cancelledAt e t = decide (k ≤ t) := fun t => by simp [cancelledAt, h1]
  by_cases hk9 : k ≤ 9
  · have hc : cancelledAt e 9 = true := by
      rw [hca]; simp only [decide_eq_true_eq]; omega
    simp [runAudioPath, hc]
  · have h9 : cancelledAt e 9 = false := by
      rw [hca]; simp only [decide_eq_false_iff_not]; omega
    have h8 : cancelledAt e 8 = false := by
      rw [hca]; simp only [decide_eq_false_iff_not]; omega
    by_cases hk11 : k ≤ 11
    · have h11 : cancelledAt e 11 = true := by
        rw [hca]; simp only [decide_eq_true_eq]; omega
      by_cases hao : e.audioOk
      · simp [runAudioPath, h8, h9, h11, hao]
      · have hlp : (runAudioPath e tr).lastPoll = 9 := by
          simp [runAudioPath, h8, h9, hao]
        rw [hlp] at h2
        omega
    · have h11 : cancelledAt e 11 = false := by
        rw [hca]; simp only [decide_eq_false_iff_not]; omega
      have hlp : (runAudioPath e tr).lastPoll = 9 ∨ (runAudioPath e tr).lastPoll = 11 := by
        simp only [runAudioPath, h8, h9, h11]
        split_ifs <;> simp
      rcases hlp with h | h <;> rw [h] at h2 <;> omega

/-- C2, counterexample.  In the run `runTask true lateCancelEnv` the cancel
flag is set at instant 12, before the run returns (instant 13), yet the run
terminates `COMPLETED` and writes its artifact: the flag was set after the
last poll (instant 11), and `_run_task` never polls again between the
transcription poll and the final write. -/
theorem cancel_after_last_poll_completes :
    lateCancelEnv.cancelAt = some 12 ∧
    12 ≤ (runTask true lateCancelEnv).endTime ∧
    (runTask true lateCancelEnv).final = TaskStatus.completed ∧
    (runTask true lateCancelEnv).artifactWritten = true := by
  decide

/-- C2, amended.  Whenever the cancelled flag is set no later than the last
`if self._cancelled` poll the run executes (in particular whenever it is
observed at a stage boundary or raised inside a collaborator call before
that poll), the run terminates in `CANCELLED` — never `ERROR` — and no
output artifact is written.  (A flag set after the run's last poll can
still end in `COMPLETED` with an artifact, as the counterexample shows.) -/
theorem cancel_observed_means_cancelled (fw : Bool) (e : TaskEnv) (k : ℕ)
    (h1 : e.cancelAt = some k) (h2 : k ≤ (runTask fw e).lastPoll) :
    (runTask fw e).final = TaskStatus.cancelled ∧
      (runTask fw e).artifactWritten = false := by
  by_cases hk2 : k ≤ 2
  · have hc : cancelledAt e 2 = true := by simp [cancelledAt, h1, hk2]
    simp [runTask, hc]
  · have hc2 : cancelledAt e 2 = false := by simp [cancelledAt, h1]; omega
    unfold runTask at h2 ⊢
    simp only [hc2, Bool.false_eq_true, if_false] at h2 ⊢
    match hinfo : e.info with
    | none => simp [hinfo] at h2 ⊢; omega
    | some info =>
      simp only [hinfo] at h2 ⊢
      by_cases hfw : fw = true
      · simp only [hfw, if_true] at h2 ⊢
        exact runAudioPath_cancel e _ k h1 h2
      · have hfw' : fw = false := by revert hfw; cases fw <;> simp
        simp only [hfw', Bool.false_eq_true, if_false] at h2 ⊢
        by_cases hempty : info.manual = [] ∧ info.auto = []
        · simp only [if_pos hempty] at h2 ⊢
          exact runAudioPath_cancel e _ k h1 h2
        · simp only [if_neg hempty] at h2 ⊢
          by_cases hk6 : k ≤ 6
          · have hc6 : cancelledAt e 6 = true := by simp [cancelledAt, h1, hk6]
            simp [hc6]
          · have hc6 : cancelledAt e 6 = false := by simp [cancelledAt, h1]; omega
            have hc5 : cancelledAt e 5 = false := by simp [cancelledAt, h1]; omega
            simp only [hc6, hc5, Bool.false_eq_true, if_false] at h2 ⊢
            by_cases hsr : e.subtitleResult = true
            · simp only [hsr, if_true] at h2 ⊢
              by_cases hls : (e.loadOk && e.saveOk) = true
              · simp only [hls, if_true] at h2 ⊢
                omega
              · simp only [hls, Bool.false_eq_true, if_false] at h2 ⊢
                exact runAudioPath_cancel e _ k h1 h2
            · simp only [hsr, Bool.false_eq_true, if_false] at h2 ⊢
              exact runAudioPath_cancel e _ k h1 h2

/-- Witness for the amended C2 at a concrete environment: a cancel request
at instant 0 is seen by the first poll and the run is `CANCELLED` with no
artifact. -/
theorem cancel_observed_means_cancelled_witness :
    (runTask false earlyCancelEnv).final = TaskStatus.cancelled ∧
      (runTask false earlyCancelEnv).artifactWritten = false :=
  cancel_observed_means_cancelled false earlyCancelEnv 0 rfl (Nat.zero_le _)

/-- C1, counterexample.  A pinned language (`fr`) present in neither the
manual (`en`) nor the automatic (`de`) list makes `download_subtitle` select
nothing — it does not fall through to automatic selection — even though both
lists are nonempty, refuting both "returns None only when both lists are
empty" and the pinned-language fall-through. -/
theorem select_pinned_absent_returns_none :
    selectSubtitle (some ['f', 'r']) false [['e', 'n']] [['d', 'e']] [['e', 'n']] = none ∧
    ([['e', 'n']] : List PyStr) ≠ [] ∧ ([['d', 'e']] : List PyStr) ≠ [] := by
  decide

theorem headI_mem {α : Type} [Inhabited α] {l : List α} (h : l ≠ []) : l.headI ∈ l := by
  cases l with
  | nil => exact absurd rfl h
  | cons a r => simp [List.headI]

theorem pickFromTier_mem (tier priority : List PyStr) (isAuto : Bool) (l : PyStr) (b : Bool)
    (h : pickFromTier tier priority isAuto = some (l, b)) : l ∈ tier ∧ b = isAuto := by
  unfold pickFromTier at h
  by_cases ht : tier.isEmpty
  · simp [ht] at h
  · rw [if_pos (by simpa using ht)] at h
    rcases hf : priority.find? (fun x => decide (x ∈ tier)) with _ | x
    · rw [hf] at h
      simp only [Option.some.injEq, Prod.mk.injEq] at h
      refine ⟨h.1 ▸ ?_, h.2.symm⟩
      exact headI_mem (by simpa using ht)
    · rw [hf] at h
      simp only [Option.some.injEq, Prod.mk.injEq] at h
      have := List.find?_some hf
      simp only [decide_eq_true_eq] at this
      exact ⟨h.1 ▸ this, h.2.symm⟩

theorem pickFromTier_none_iff (tier priority : List PyStr) (isAuto : Bool) :
    pickFromTier tier priority isAuto = none ↔ tier = [] := by
  unfold pickFromTier
  by_cases ht : tier.isEmpty
  · simp [ht]
    simpa using ht
  · rw [if_pos (by simpa using ht)]
    constructor
    · intro h
      rcases hf : priority.find? (fun x => decide (x ∈ tier)) with _ | x <;>
        rw [hf] at h <;> simp at h
    · intro h
      subst h
      simp at ht

/-- C1, amended.  `download_subtitle`'s selection never returns a language
absent from both lists; with no pinned language and the default manual-first
preference it returns `None` exactly when both lists are empty; but a pinned
language present in neither list yields `None` (after a logged warning) even
when other tracks exist — there is no fall-through to automatic selection. -/
theorem selectSubtitle_sound (language : Option PyStr) (preferAuto : Bool)
    (manual auto priority : List PyStr) :
    (∀ l b, selectSubtitle language preferAuto manual auto priority = some (l, b) →
      l ∈ manual ∨ l ∈ auto) ∧
    (language = none → preferAuto = false →
      (selectSubtitle language preferAuto manual auto priority = none ↔
        manual = [] ∧ auto = [])) ∧
    (∀ l, language = some l → l ∉ manual → l ∉ auto →
      selectSubtitle language preferAuto manual auto priority = none) := by
  refine ⟨?_, ?_, ?_⟩
  · intro l b h
    unfold selectSubtitle at h
    split at h
    · exact absurd h (by simp)
    · cases language with
      | some lang =>
        dsimp only at h
        by_cases h1 : lang ∈ manual
        · rw [if_pos h1] at h
          simp only [Option.some.injEq, Prod.mk.injEq] at h
          exact Or.inl (h.1 ▸ h1)
        · rw [if_neg h1] at h
          by_cases h2 : lang ∈ auto
          · rw [if_pos h2] at h
            simp only [Option.some.injEq, Prod.mk.injEq] at h
            exact Or.inr (h.1 ▸ h2)
          · rw [if_neg h2] at h
            exact absurd h (by simp)
      | none =>
        dsimp only at h
        rcases hm : (if preferAuto = true then none else pickFromTier manual priority false)
          with _ | r
        · rw [hm] at h
          dsimp only at h
          exact Or.inr (pickFromTier_mem auto priority true l b h).1
        · rw [hm] at h
          dsimp only at h
          simp only [Option.some.injEq] at h
          subst h
          rcases hpa : preferAuto with _ | _
          · rw [hpa] at hm
            simp only [Bool.false_eq_true, if_false] at hm
            exact Or.inl (pickFromTier_mem manual priority false l b hm).1
          · rw [hpa] at hm
            simp at hm
  · rintro rfl rfl
    unfold selectSubtitle
    split
    · rename_i hboth
      simpa using hboth
    · rename_i hboth
      dsimp only
      simp only [Bool.false_eq_true, if_false]
      rcases hm : pickFromTier manual priority false with _ | r
      · have hman : manual = [] := (pickFromTier_none_iff manual priority false).mp hm
        rw [pickFromTier_none_iff]
        constructor
        · intro ha; exact ⟨hman, ha⟩
        · intro hc; exact hc.2
      · dsimp only
        constructor
        · intro hc; exact absurd hc (by simp)
        · intro hc
          have hn := (pickFromTier_none_iff manual priority false).mpr hc.1
          rw [hn] at hm
          exact absurd hm (by simp)
  · rintro l rfl hnm hna
    unfold selectSubtitle
    split
    · rfl
    · dsimp only
      rw [if_neg hnm, if_neg hna]

/-- Witness for the amended C1 at concrete inputs: an unpinned selection
from a nonempty manual list lands in the catalog, the empty catalog selects
`None`, and a pinned language in neither list selects `None`. -/
theorem selectSubtitle_sound_witness :
    (['e', 'n'] ∈ [['e', 'n']] ∨ ['e', 'n'] ∈ ([] : List PyStr)) ∧
    (selectSubtitle none false [] [] [] = none ↔
      ([] : List PyStr) = [] ∧ ([] : List PyStr) = []) ∧
    selectSubtitle (some ['f', 'r']) false [['e', 'n']] [['d', 'e']] [] = none := by
  refine ⟨(selectSubtitle_sound none false [['e', 'n']] [] []).1 ['e', 'n'] false (by decide),
    (selectSubtitle_sound none false [] [] []).2.1 rfl rfl,
    (selectSubtitle_sound (some ['f', 'r']) false [['e', 'n']] [['d', 'e']] []).2.2 ['f', 'r']
      rfl (by decide) (by decide)⟩

theorem srt_flatMap_length (segs : List Segment) :
    ∀ n, ((List.enumFrom n segs).flatMap srtChunk).length = 4 * segs.length := by
  induction segs with
  | nil => intro n; simp
  | cons s r ih =>
    intro n
    simp only [List.enumFrom, List.flatMap_cons, List.length_append, ih, List.length_cons]
    simp [srtChunk]
    ring

theorem srt_flatMap_get (segs : List Segment) :
    ∀ n k seg, segs.get? k = some seg →
      ((List.enumFrom n segs).flatMap srtChunk).get? (4 * k) = some (natToDec (n + k)) ∧
      ((List.enumFrom n segs).flatMap srtChunk).get? (4 * k + 2) = some seg.text := by
  induction segs with
  | nil => intro n k seg h; simp at h
  | cons s r ih =>
    intro n k seg h
    cases k with
    | zero =>
      simp only [List.get?_cons_zero, Option.some.injEq] at h
      subst h
      simp [srtChunk, List.enumFrom]
    | succ k =>
      simp only [List.get?_cons_succ] at h
      have hlen : (srtChunk (n, s)).length = 4 := by simp [srtChunk]
      have h1 : 4 * (k + 1) = (srtChunk (n, s)).length + 4 * k := by rw [hlen]; ring
      have h2 : 4 * (k + 1) + 2 = (srtChunk (n, s)).length + (4 * k + 2) := by rw [hlen]; ring
      have ihr := ih (n + 1) k seg h
      constructor
      · rw [List.enumFrom, List.flatMap_cons, h1, List.get?_append_right (by omega)]
        have hidx : (srtChunk (n, s)).length + 4 * k - (srtChunk (n, s)).length = 4 * k := by
          omega
        rw [hidx, show n + (k + 1) = n + 1 + k from by omega]
        exact ihr.1
      · rw [List.enumFrom, List.flatMap_cons, h2, List.get?_append_right (by omega)]
        have : (srtChunk (n, s)).length + (4 * k + 2) - (srtChunk (n, s)).length = 4 * k + 2 := by
          omega
        rw [this, ihr.2]

theorem vtt_flatMap_get (segs : List Segment) :
    ∀ k seg, segs.get? k = some seg →
      (toVttBody segs).get? (3 * k + 1) = some seg.text := by
  induction segs with
  | nil => intro k seg h; simp at h
  | cons s r ih =>
    intro k seg h
    cases k with
    | zero =>
      simp only [List.get?_cons_zero, Option.some.injEq] at h
      subst h
      simp [toVttBody, vttChunk]
    | succ k =>
      simp only [List.get?_cons_succ] at h
      have hlen : (vttChunk s).length = 3 := by simp [vttChunk]
      have h1 : 3 * (k + 1) + 1 = (vttChunk s).length + (3 * k + 1) := by rw [hlen]; ring
      rw [toVttBody, List.flatMap_cons, h1, List.get?_append_right (by omega)]
      have : (vttChunk s).length + (3 * k + 1) - (vttChunk s).length = 3 * k + 1 := by omega
      rw [this]
      exact ih k seg h

/-- C10.  `to_srt` and `to_vtt` render the raw parsed segment list without
any normalization: the SRT line list has exactly four lines per segment (so
the cue count equals `segment_count` even when adjacent texts are
identical), cue `k` carries the sequential index `k+1` and the segment's
text verbatim, and likewise the VTT line list has the two header lines plus
three lines per segment with the text verbatim. -/
theorem emitters_render_raw (segs : List Segment) :
    (toSrtLines segs).length = 4 * segs.length ∧
    (toVttLines segs).length = 2 + 3 * segs.length ∧
    ∀ k seg, segs.get? k = some seg →
      (toSrtLines segs).get? (4 * k) = some (natToDec (k + 1)) ∧
      (toSrtLines segs).get? (4 * k + 2) = some seg.text ∧
      (toVttLines segs).get? (2 + (3 * k + 1)) = some seg.text := by
  refine ⟨srt_flatMap_length segs 1, ?_, ?_⟩
  · simp only [toVttLines, List.length_append]
    have : ∀ l : List Segment, (toVttBody l).length = 3 * l.length := by
      intro l
      induction l with
      | nil => simp [toVttBody]
      | cons s r ih =>
        simp only [toVttBody, List.flatMap_cons, List.length_append] at ih ⊢
        simp [vttChunk, ih]
        ring
    rw [this]
    simp
  · intro k seg h
    have hsrt := srt_flatMap_get segs 1 k seg h
    refine ⟨?_, hsrt.2, ?_⟩
    · rw [show k + 1 = 1 + k from by omega]
      exact hsrt.1
    · have hv := vtt_flatMap_get segs k seg h
      rw [toVttLines]
      rw [List.get?_append_right (by simp)]
      simpa using hv

/-- Witness for C10 at a concrete two-segment list with byte-identical
texts: both cues survive in both emitters. -/
theorem emitters_render_raw_witness :
    (toSrtLines segsDupTexts).get? (4 * 1) = some (natToDec 2) ∧
    (toSrtLines segsDupTexts).get? (4 * 1 + 2) = some ['H', 'i'] ∧
    (toVttLines segsDupTexts).get? (2 + (3 * 1 + 1)) = some ['H', 'i'] :=
  (emitters_render_raw segsDupTexts).2.2 1
    { start := 1, stop := 2, text := ['H', 'i'] } rfl

theorem dropWhile_eq_self_of (p : Char → Bool) (l : PyStr)
    (h : ∀ c ∈ l, p c = false) : l.dropWhile p = l := by
  cases l with
  | nil => rfl
  | cons a r => rw [List.dropWhile_cons_of_neg (by simp [h a (List.mem_cons_self a r)])]

theorem pyStrip_eq_self (s : PyStr) (h : ∀ c ∈ s, isPySpace c = false) : pyStrip s = s := by
  unfold pyStrip
  rw [dropWhile_eq_self_of isPySpace s h,
    dropWhile_eq_self_of isPySpace s.reverse (fun c hc => h c (List.mem_reverse.mp hc)),
    List.reverse_reverse]

theorem mem_pyStrip (s : PyStr) (c : Char) (h : c ∈ pyStrip s) : c ∈ s := by
  unfold pyStrip at h
  rw [List.mem_reverse] at h
  have h1 := List.dropWhile_sublist (p := isPySpace) (l := (s.dropWhile isPySpace).reverse)
    |>.subset h
  rw [List.mem_reverse] at h1
  exact (List.dropWhile_sublist (p := isPySpace) (l := s)).subset h1

theorem splitOnC_ne_nil (sep : Char) (s : PyStr) : splitOnC sep s ≠ [] := by
  cases s with
  | nil => simp [splitOnC]
  | cons c r =>
    by_cases h : c = sep
    · simp [splitOnC, h]
    · simp only [splitOnC, if_neg h]
      split <;> simp

theorem mem_splitOnC (sep : Char) (s : PyStr) :
    ∀ p ∈ splitOnC sep s, ∀ c ∈ p, c ∈ s := by
  induction s with
  | nil =>
    intro p hp c hc
    simp [splitOnC] at hp
    subst hp
    simp at hc
  | cons a r ih =>
    intro p hp c hc
    by_cases h : a = sep
    · rw [splitOnC, if_pos h] at hp
      rcases List.mem_cons.mp hp with rfl | hp'
      · simp at hc
      · exact List.mem_cons_of_mem a (ih p hp' c hc)
    · rw [splitOnC, if_neg h] at hp
      rcases hsp : splitOnC sep r with _ | ⟨g, gs⟩
      · exact absurd hsp (splitOnC_ne_nil sep r)
      · rw [hsp] at hp
        rcases List.mem_cons.mp hp with rfl | hp'
        · rcases List.mem_cons.mp hc with rfl | hc'
          · exact List.mem_cons_self c r
          · exact List.mem_cons_of_mem a (ih g (hsp ▸ List.mem_cons_self g gs) c hc')
        · exact List.mem_cons_of_mem a (ih p (hsp ▸ List.mem_cons_of_mem g hp') c hc)

theorem splitOnC_append (sep : Char) (a r : PyStr) (h : sep ∉ a) :
    splitOnC sep (a ++ sep :: r) = a :: splitOnC sep r := by
  induction a with
  | nil => simp [splitOnC]
  | cons x xs ih =>
    have hx : x ≠ sep := fun he => h (he ▸ List.mem_cons_self x xs)
    rw [List.cons_append, splitOnC, if_neg hx, ih (fun hm => h (List.mem_cons_of_mem x hm))]

theorem splitOnC_single (sep : Char) (s : PyStr) (h : sep ∉ s) :
    splitOnC sep s = [s] := by
  induction s with
  | nil => rfl
  | cons x xs ih =>
    have hx : x ≠ sep := fun he => h (he ▸ List.mem_cons_self x xs)
    rw [splitOnC, if_neg hx, ih (fun hm => h (List.mem_cons_of_mem x hm))]

theorem joinSep_splitOnC (sep : Char) (s : PyStr) : joinSep sep (splitOnC sep s) = s := by
  induction s with
  | nil => rfl
  | cons c r ih =>
    by_cases h : c = sep
    · subst h
      rw [splitOnC, if_pos rfl]
      rcases hsp : splitOnC c r with _ | ⟨g, gs⟩
      · exact absurd hsp (splitOnC_ne_nil c r)
      · rw [hsp] at ih
        show ([] : PyStr) ++ c :: joinSep c (g :: gs) = c :: r
        rw [List.nil_append, ih]
    · rw [splitOnC, if_neg h]
      rcases hsp : splitOnC sep r with _ | ⟨g, gs⟩
      · exact absurd hsp (splitOnC_ne_nil sep r)
      · rw [hsp] at ih
        cases gs with
        | nil =>
          have ih' : g = r := ih
          show c :: g = c :: r
          rw [ih']
        | cons g2 gs2 =>
          have ih' : g ++ sep :: joinSep sep (g2 :: gs2) = r := ih
          show (c :: g) ++ sep :: joinSep sep (g2 :: gs2) = c :: r
          rw [List.cons_append, ih']

theorem decVal_nil : decVal [] = 0 := rfl

theorem decVal_append_digit (a : PyStr) (c : Char) :
    decVal (a ++ [c]) = 10 * decVal a + digVal c := by
  simp only [decVal, List.map_append, List.map_cons, List.map_nil, List.reverse_append,
    List.reverse_cons, List.reverse_nil, List.nil_append, List.singleton_append,
    Nat.ofDigits_cons]
  ring

theorem isPySpace_eq_false_of_digit (c : Char) (h : c.isDigit = true) :
    isPySpace c = false := by
  cases hsp : isPySpace c
  · rfl
  · exfalso
    simp only [isPySpace, Bool.or_eq_true, decide_eq_true_eq] at hsp
    rcases hsp with ((((rfl | rfl) | rfl) | rfl) | rfl) | rfl <;> revert h <;> decide

theorem digVal_lt_ten (c : Char) (h : c.isDigit = true) : digVal c < 10 := by
  have hb : 48 ≤ c.toNat ∧ c.toNat ≤ 57 := by
    simp [Char.isDigit, Char.le_def] at h
    exact ⟨h.1, h.2⟩
  simp only [digVal]
  omega

theorem digVal_digitChar (d : ℕ) (h : d < 10) : digVal (Nat.digitChar d) = d := by
  revert h
  revert d
  decide

theorem digitChar_isDigit (d : ℕ) (h : d < 10) : (Nat.digitChar d).isDigit = true := by
  revert h
  revert d
  decide

theorem natToDecAux_congr (n : ℕ) :
    ∀ f1 f2, n ≤ f1 → n ≤ f2 → natToDecAux f1 n = natToDecAux f2 n := by
  induction n using Nat.strong_induction_on with
  | _ n ih =>
    intro f1 f2 h1 h2
    cases n with
    | zero => cases f1 <;> cases f2 <;> rfl
    | succ m =>
      cases f1 with
      | zero => omega
      | succ g1 =>
        cases f2 with
        | zero => omega
        | succ g2 =>
          rw [natToDecAux, natToDecAux]
          have hd : (m + 1) / 10 < m + 1 := Nat.div_lt_self (Nat.succ_pos m) (by norm_num)
          rw [ih ((m + 1) / 10) hd g1 g2 (by omega) (by omega)]

theorem natToDec_pos_eq (n : ℕ) (h : 0 < n) :
    natToDec n = natToDec (n / 10) ++ [Nat.digitChar (n % 10)] := by
  obtain ⟨m, rfl⟩ : ∃ m, n = m + 1 := ⟨n - 1, by omega⟩
  show natToDecAux (m + 1) (m + 1) = _
  rw [natToDecAux]
  have hd : (m + 1) / 10 < m + 1 := Nat.div_lt_self (Nat.succ_pos m) (by norm_num)
  rw [natToDecAux_congr ((m + 1) / 10) m ((m + 1) / 10) (by omega) (by omega)]
  rfl

theorem decVal_natToDec (n : ℕ) : decVal (natToDec n) = n := by
  induction n using Nat.strong_induction_on with
  | _ n ih =>
    rcases Nat.eq_zero_or_pos n with rfl | hpos
    · rfl
    · rw [natToDec_pos_eq n hpos, decVal_append_digit,
        ih (n / 10) (Nat.div_lt_self hpos (by norm_num)),
        digVal_digitChar (n % 10) (Nat.mod_lt n (by norm_num))]
      omega

theorem natToDec_digits (n : ℕ) : ∀ c ∈ natToDec n, c.isDigit = true := by
  induction n using Nat.strong_induction_on with
  | _ n ih =>
    intro c hc
    rcases Nat.eq_zero_or_pos n with rfl | hpos
    · simp [natToDec, natToDecAux] at hc
    · rw [natToDec_pos_eq n hpos] at hc
      rcases List.mem_append.mp hc with h | h
      · exact ih (n / 10) (Nat.div_lt_self hpos (by norm_num)) c h
      · simp only [List.mem_singleton] at h
        subst h
        exact digitChar_isDigit (n % 10) (Nat.mod_lt n (by norm_num))

theorem natToDec_length_le (k : ℕ) : ∀ n, n < 10 ^ k → (natToDec n).length ≤ k := by
  induction k with
  | zero =>
    intro n h
    interval_cases n
    simp [natToDec, natToDecAux]
  | succ j ih =>
    intro n h
    rcases Nat.eq_zero_or_pos n with rfl | hpos
    · simp [natToDec, natToDecAux]
    · rw [natToDec_pos_eq n hpos]
      have : n / 10 < 10 ^ j := by
        rw [Nat.div_lt_iff_lt_mul (by norm_num)]
        calc n < 10 ^ (j + 1) := h
        _ = 10 ^ j * 10 := by ring
      have hl := ih (n / 10) this
      simp only [List.length_append, List.length_cons, List.length_nil]
      omega

theorem ofDigits_lt (l : List ℕ) (h : ∀ d ∈ l, d < 10) :
    Nat.ofDigits 10 l < 10 ^ l.length := by
  induction l with
  | nil => simp [Nat.ofDigits]
  | cons d rest ih =>
    have hd : d < 10 := h d (List.mem_cons_self d rest)
    have hr : Nat.ofDigits 10 rest < 10 ^ rest.length :=
      ih (fun x hx => h x (List.mem_cons_of_mem d hx))
    rw [Nat.ofDigits_cons]
    simp only [List.length_cons, pow_succ]
    omega

theorem decVal_lt (s : PyStr) (h : ∀ c ∈ s, c.isDigit = true) :
    decVal s < 10 ^ s.length := by
  have := ofDigits_lt ((s.map digVal).reverse) (by
    intro d hd
    rw [List.mem_reverse] at hd
    obtain ⟨c, hc, rfl⟩ := List.mem_map.mp hd
    exact digVal_lt_ten c (h c hc))
  simpa [decVal] using this

theorem ofDigits_replicate_zero (k : ℕ) : Nat.ofDigits 10 (List.replicate k 0) = 0 := by
  induction k with
  | zero => simp [Nat.ofDigits]
  | succ j ih => rw [List.replicate_succ, Nat.ofDigits_cons, ih]

theorem decVal_zeroPad (w : ℕ) (s : PyStr) : decVal (zeroPad w s) = decVal s := by
  simp only [decVal, zeroPad, List.map_append, List.reverse_append, Nat.ofDigits_append]
  have h1 : (List.replicate (w - s.length) '0').map digVal =
      List.replicate (w - s.length) 0 := by
    rw [List.map_replicate]
    rfl
  rw [h1, List.reverse_replicate, ofDigits_replicate_zero]
  simp

theorem zeroPad_length (w : ℕ) (s : PyStr) (h : s.length ≤ w) :
    (zeroPad w s).length = w := by
  simp only [zeroPad, List.length_append, List.length_replicate]
  omega

theorem zeroPad_ne_nil (w : ℕ) (s : PyStr) (h : 0 < w) : zeroPad w s ≠ [] := by
  intro he
  have := congrArg List.length he
  simp only [zeroPad, List.length_append, List.length_replicate, List.length_nil] at this
  omega

theorem zeroPad_digits (w : ℕ) (s : PyStr) (h : ∀ c ∈ s, c.isDigit = true) :
    ∀ c ∈ zeroPad w s, c.isDigit = true := by
  intro c hc
  rcases List.mem_append.mp hc with h1 | h1
  · rw [List.eq_of_mem_replicate h1]
    decide
  · exact h c h1

theorem pyNatStr_digits (s : PyStr) (hne : s ≠ []) (h : ∀ c ∈ s, c.isDigit = true) :
    pyNatStr s = some (decVal s) := by
  unfold pyNatStr
  rw [if_pos]
  simp only [Bool.and_eq_true, Bool.not_eq_true', List.isEmpty_eq_false]
  exact ⟨hne, List.all_eq_true.mpr h⟩

theorem digit_ne_minus (c : Char) (h : c.isDigit = true) : c ≠ '-' := by
  intro he
  rw [he] at h
  exact absurd h (by decide)

theorem digit_ne_plus (c : Char) (h : c.isDigit = true) : c ≠ '+' := by
  intro he
  rw [he] at h
  exact absurd h (by decide)

theorem pyInt_digits (s : PyStr) (hne : s ≠ []) (h : ∀ c ∈ s, c.isDigit = true) :
    pyInt s = some (decVal s : ℤ) := by
  cases s with
  | nil => exact absurd rfl hne
  | cons c r =>
    have hc : c.isDigit = true := h c (List.mem_cons_self c r)
    rw [pyInt, if_neg (digit_ne_minus c hc), if_neg (digit_ne_plus c hc),
      pyNatStr_digits (c :: r) hne h]
    rfl

theorem pyNatStr_nonneg (s : PyStr) (n : ℕ) (h : pyNatStr s = some n) : True := trivial

theorem pyInt_nonneg (s : PyStr) (z : ℤ) (hm : '-' ∉ s) (h : pyInt s = some z) : 0 ≤ z := by
  cases s with
  | nil => simp [pyInt] at h
  | cons c r =>
    have hc : c ≠ '-' := fun he => hm (he ▸ List.mem_cons_self c r)
    rw [pyInt, if_neg hc] at h
    by_cases hp : c = '+'
    · rw [if_pos hp] at h
      rcases hx : pyNatStr r with _ | n
      · rw [hx] at h
        simp at h
      · rw [hx] at h
        simp only [Option.map_some', Option.some.injEq] at h
        rw [← h]
        exact Int.natCast_nonneg n
    · rw [if_neg hp] at h
      rcases hx : pyNatStr (c :: r) with _ | n
      · rw [hx] at h
        simp at h
      · rw [hx] at h
        simp only [Option.map_some', Option.some.injEq] at h
        rw [← h]
        exact Int.natCast_nonneg n


theorem pyFloatUnsigned_nonneg (s : PyStr) (q : ℚ) (h : pyFloatUnsigned s = some q) :
    0 ≤ q := by
  unfold pyFloatUnsigned at h
  split at h
  · split at h
    · simp only [Option.some.injEq] at h
      subst h
      positivity
    · simp at h
  · split at h
    · simp only [Option.some.injEq] at h
      subst h
      positivity
    · simp at h
  · simp at h

theorem pyFloat_nonneg (s : PyStr) (q : ℚ) (hm : '-' ∉ s) (h : pyFloat s = some q) :
    0 ≤ q := by
  unfold pyFloat at h
  split at h
  · exact absurd (List.mem_cons_self '-' _) hm
  · exact pyFloatUnsigned_nonneg _ q h
  · exact pyFloatUnsigned_nonneg _ q h

theorem parseTimestampCore_nonneg (s : PyStr) (q : ℚ) (hm : ∀ c ∈ s, c ≠ '-')
    (h : parseTimestampCore s = some q) : 0 ≤ q := by
  have hmt : ∀ p ∈ splitOnC ':' (pyStrip s), '-' ∉ p := by
    intro p hp hmem
    exact hm '-' (mem_pyStrip s '-' (mem_splitOnC ':' (pyStrip s) p hp '-' hmem)) rfl
  unfold parseTimestampCore at h
  rcases hsp : splitOnC ':' (pyStrip s) with _ | ⟨p0, rest⟩
  · exact absurd hsp (splitOnC_ne_nil _ _)
  · rw [hsp] at h
    have hp0 : '-' ∉ p0 := hmt p0 (hsp ▸ List.mem_cons_self _ _)
    rcases rest with _ | ⟨p1, rest2⟩
    · exact pyFloat_nonneg p0 q hp0 h
    · have hp1 : '-' ∉ p1 :=
        hmt p1 (hsp ▸ List.mem_cons_of_mem _ (List.mem_cons_self _ _))
      rcases rest2 with _ | ⟨p2, rest3⟩
      · dsimp only at h
        rcases hi : pyInt p0 with _ | mz <;> rcases hf : pyFloat p1 with _ | sz <;>
          rw [hi, hf] at h <;> dsimp only at h
        · exact absurd h (by simp)
        · exact absurd h (by simp)
        · exact absurd h (by simp)
        · simp only [Option.some.injEq] at h
          rw [← h]
          have h1 := pyInt_nonneg p0 mz hp0 hi
          have h2 := pyFloat_nonneg p1 sz hp1 hf
          have c1 : (0 : ℚ) ≤ (mz : ℚ) := by exact_mod_cast h1
          positivity
      · have hp2 : '-' ∉ p2 :=
          hmt p2 (hsp ▸ List.mem_cons_of_mem _ (List.mem_cons_of_mem _
            (List.mem_cons_self _ _)))
        rcases rest3 with _ | ⟨p3, rest4⟩
        · dsimp only at h
          rcases hi : pyInt p0 with _ | hz <;> rcases hj : pyInt p1 with _ | mz <;>
            rcases hf : pyFloat p2 with _ | sz <;> rw [hi, hj, hf] at h <;> dsimp only at h
          iterate 7 exact absurd h (by simp)
          simp only [Option.some.injEq] at h
          rw [← h]
          have h0 := pyInt_nonneg p0 hz hp0 hi
          have h1 := pyInt_nonneg p1 mz hp1 hj
          have h2 := pyFloat_nonneg p2 sz hp2 hf
          have c0 : (0 : ℚ) ≤ (hz : ℚ) := by exact_mod_cast h0
          have c1 : (0 : ℚ) ≤ (mz : ℚ) := by exact_mod_cast h1
          positivity
        · exact pyFloat_nonneg p0 q hp0 h

theorem parseTimestamp_nonneg (s : PyStr) (hm : ∀ c ∈ s, c ≠ '-') :
    0 ≤ parseTimestamp s := by
  unfold parseTimestamp
  rcases hc : parseTimestampCore s with _ | q
  · simp
  · simpa using parseTimestampCore_nonneg s q hm hc

theorem matchArrowWith_chars (cls : Char → Bool) (l : PyStr) (g : PyStr × PyStr)
    (h : matchArrowWith cls l = some g) :
    (∀ c ∈ g.1, cls c = true) ∧ (∀ c ∈ g.2, cls c = true) := by
  unfold matchArrowWith at h
  dsimp only at h
  split at h
  · exact absurd h (by simp)
  · split at h
    · split at h
      · exact absurd h (by simp)
      · simp only [Option.some.injEq] at h
        subst h
        exact ⟨fun c hc => List.mem_takeWhile_imp hc, fun c hc => List.mem_takeWhile_imp hc⟩
    · exact absurd h (by simp)

theorem vttClass_ne_minus (c : Char) (h : vttClass c = true) : c ≠ '-' := by
  intro he
  rw [he] at h
  exact absurd h (by decide)

theorem srtClass_ne_minus (c : Char) (h : srtClass c = true) : c ≠ '-' := by
  intro he
  rw [he] at h
  exact absurd h (by decide)

theorem commaToDot_ne_minus (x : PyStr) (hx : ∀ c ∈ x, c ≠ '-') :
    ∀ c ∈ commaToDot x, c ≠ '-' := by
  intro c hc
  obtain ⟨d, hd, rfl⟩ := List.mem_map.mp hc
  by_cases hdc : d = ','
  · rw [if_pos hdc]
    decide
  · rw [if_neg hdc]
    exact hx d hd

theorem parseVttLinesF_nonneg (fuel : ℕ) :
    ∀ lines seg, seg ∈ parseVttLinesF fuel lines → 0 ≤ seg.start ∧ 0 ≤ seg.stop := by
  induction fuel with
  | zero => intro lines seg h; simp [parseVttLinesF] at h
  | succ f ih =>
    intro lines seg h
    cases lines with
    | nil => simp [parseVttLinesF] at h
    | cons l rest =>
      rw [parseVttLinesF] at h
      dsimp only at h
      split at h
      · exact ih rest seg h
      · split at h
        · split at h
          · rename_i g heq
            split at h
            · exact ih _ seg h
            · rcases List.mem_cons.mp h with rfl | h'
              · have hg := matchArrowWith_chars vttClass (pyStrip l) g heq
                constructor
                · exact parseTimestamp_nonneg (pyStrip g.1) (fun c hc =>
                    vttClass_ne_minus c (hg.1 c (mem_pyStrip g.1 c hc)))
                · exact parseTimestamp_nonneg (pyStrip g.2) (fun c hc =>
                    vttClass_ne_minus c (hg.2 c (mem_pyStrip g.2 c hc)))
              · exact ih _ seg h'
          · exact ih rest seg h
        · exact ih rest seg h

theorem parseSrtBlock_nonneg (block : PyStr) (seg : Segment)
    (h : parseSrtBlock block = some seg) : 0 ≤ seg.start ∧ 0 ≤ seg.stop := by
  unfold parseSrtBlock at h
  dsimp only at h
  split at h
  · exact absurd h (by simp)
  · split at h
    · exact absurd h (by simp)
    · rename_i tsLine textLines _
      split at h
      · exact absurd h (by simp)
      · split at h
        · exact absurd h (by simp)
        · rename_i g heq
          split at h
          · exact absurd h (by simp)
          · simp only [Option.some.injEq] at h
            subst h
            have hg := matchArrowWith_chars srtClass tsLine g heq
            constructor
            · exact parseTimestamp_nonneg (commaToDot (pyStrip g.1))
                (commaToDot_ne_minus (pyStrip g.1) (fun c hc =>
                  srtClass_ne_minus c (hg.1 c (mem_pyStrip g.1 c hc))))
            · exact parseTimestamp_nonneg (commaToDot (pyStrip g.2))
                (commaToDot_ne_minus (pyStrip g.2) (fun c hc =>
                  srtClass_ne_minus c (hg.2 c (mem_pyStrip g.2 c hc))))

/-- C3, counterexample.  The parser copies the two timestamps as they stand:
a cue running from 5s to 1s yields a segment with `end < start`, refuting
`end ≥ start` for parser output. -/
theorem parse_keeps_decreasing_cue :
    parseVtt vttDecreasingCue = [{ start := 5, stop := 1, text := ['H', 'i'] }] ∧
      (1 : ℚ) < 5 :=
  ⟨by decide, by norm_num⟩

/-- C3, amended.  Every segment produced by any of the three parsers has
`start ≥ 0` and `end ≥ 0` (the timestamp character class admits no minus
sign), and normalization (cleaning and deduplication) only ever copies the
`start`/`end` of an input segment — but `end ≥ start` is *not* guaranteed:
the parsers keep whatever order the file presents, as the counterexample
shows. -/
theorem parsed_segments_nonneg (content : PyStr) (segs : List Segment) (seg : Segment) :
    (seg ∈ parseVtt content ∨ seg ∈ parseSrt content ∨ seg ∈ parseGeneric content →
      0 ≤ seg.start ∧ 0 ≤ seg.stop) ∧
    (seg ∈ dedupSegments (cleanSegments segs) →
      ∃ s0 ∈ segs, seg.start = s0.start ∧ seg.stop = s0.stop) := by
  constructor
  · rintro (h | h | h)
    · exact parseVttLinesF_nonneg _ _ seg h
    · obtain ⟨block, _, hb⟩ := List.mem_filterMap.mp h
      exact parseSrtBlock_nonneg block seg hb
    · rw [parseGeneric, parseGenericLines_eq_filterMap] at h
      obtain ⟨l, _, hl⟩ := List.mem_filterMap.mp h
      dsimp only at hl
      split at hl
      · simp only [Option.some.injEq] at hl
        subst hl
        exact ⟨le_refl 0, le_refl 0⟩
      · exact absurd hl (by simp)
  · intro h
    have h1 : seg ∈ cleanSegments segs :=
      (dedupLoop_sublist (cleanSegments segs) none).subset h
    obtain ⟨s0, hs0, hmk⟩ := List.mem_filterMap.mp h1
    dsimp only at hmk
    split at hmk
    · exact absurd hmk (by simp)
    · simp only [Option.some.injEq] at hmk
      exact ⟨s0, hs0, by rw [← hmk], by rw [← hmk]⟩

/-- Witness for the amended C3: a concrete parsed segment is nonnegative,
and a concrete surviving segment keeps its source timestamps. -/
theorem parsed_segments_nonneg_witness :
    ((0 : ℚ) ≤ 1 ∧ (0 : ℚ) ≤ 2) ∧
    ∃ s0 ∈ segsDupTexts, (0 : ℚ) = s0.start ∧ (1 : ℚ) = s0.stop :=
  ⟨(parsed_segments_nonneg vttSmall segsDupTexts
      { start := 1, stop := 2, text := ['H', 'i'] }).1 (Or.inl (by decide)),
   (parsed_segments_nonneg vttSmall segsDupTexts
      { start := 0, stop := 1, text := ['H', 'i'] }).2 (by decide)⟩

/-- In the exact-rational idealization, whenever the `try` body fails
(`parseTimestampCore = none`), and in particular whenever any split
component is non-numeric, `_parse_timestamp` returns `0.0`.  The
idealization erases the int→float `OverflowError`, so this totality does
NOT transfer to the program: see `parse_timestamp_overflow_aborts` and
`parse_timestamp_total_bounded` for the binary64-faithful account. -/
theorem parse_timestamp_total_on_malformed (s : PyStr) :
    (parseTimestampCore s = none → parseTimestamp s = 0) ∧
    (∀ p0 p1 p2, splitOnC ':' (pyStrip s) = [p0, p1, p2] →
      pyInt p0 = none ∨ pyInt p1 = none ∨ pyFloat p2 = none → parseTimestamp s = 0) ∧
    (∀ p0 p1, splitOnC ':' (pyStrip s) = [p0, p1] →
      pyInt p0 = none ∨ pyFloat p1 = none → parseTimestamp s = 0) := by
  refine ⟨?_, ?_, ?_⟩
  · intro h
    unfold parseTimestamp
    rw [h]
    rfl
  · intro p0 p1 p2 hsplit hbad
    unfold parseTimestamp parseTimestampCore
    rw [hsplit]
    dsimp only
    rcases ha : pyInt p0 with _ | v0 <;> rcases hb : pyInt p1 with _ | v1 <;>
      rcases hc : pyFloat p2 with _ | v2 <;> dsimp only <;> try rfl
    rcases hbad with hx | hx | hx <;> simp_all
  · intro p0 p1 hsplit hbad
    unfold parseTimestamp parseTimestampCore
    rw [hsplit]
    dsimp only
    rcases ha : pyInt p0 with _ | v0 <;> rcases hb : pyFloat p1 with _ | v1 <;>
      dsimp only <;> try rfl
    rcases hbad with hx | hx <;> simp_all

/-- In the idealization, a timestamp with non-numeric components parses
to 0. -/
theorem parse_timestamp_total_witness :
    parseTimestamp ['a', 'a', ':', 'b', 'b', ':', 'c', 'c'] = 0 :=
  (parse_timestamp_total_on_malformed ['a', 'a', ':', 'b', 'b', ':', 'c', 'c']).2.1
    ['a', 'a'] ['b', 'b'] ['c', 'c'] (by decide) (Or.inl (by decide))

theorem floor_nat_add_frac (M : ℕ) (f : ℚ) (h0 : 0 ≤ f) (h1 : f < 1) :
    ⌊(M : ℚ) + f⌋ = M := by
  rw [add_comm, Int.floor_add_nat, Int.floor_eq_zero_iff.mpr (Set.mem_Ico.mpr ⟨h0, h1⟩)]
  simp

theorem floor_div_add_frac (N k : ℕ) (f : ℚ) (hk : 0 < k) (h0 : 0 ≤ f) (h1 : f < 1) :
    ⌊((N : ℚ) + f) / (k : ℚ)⌋ = (N / k : ℕ) := by
  have hkq : (0 : ℚ) < (k : ℚ) := by exact_mod_cast hk
  have hmul : ((N / k : ℕ) : ℚ) * k ≤ (N : ℚ) := by exact_mod_cast Nat.div_mul_le_self N k
  have hmod : N % k < k := Nat.mod_lt N hk
  have hdm : k * (N / k) + N % k = N := Nat.div_add_mod N k
  have hdmq : (k : ℚ) * ((N / k : ℕ) : ℚ) + ((N % k : ℕ) : ℚ) = (N : ℚ) := by
    exact_mod_cast hdm
  have hmodq : ((N % k : ℕ) : ℚ) < (k : ℚ) := by exact_mod_cast hmod
  have hmodq1 : ((N % k : ℕ) : ℚ) + 1 ≤ (k : ℚ) := by exact_mod_cast hmod
  rw [Int.floor_eq_iff]
  constructor
  · rw [le_div_iff hkq, Int.cast_natCast]
    linarith
  · rw [div_lt_iff hkq, Int.cast_natCast]
    have hexp : (((N / k : ℕ) : ℚ) + 1) * (k : ℚ) = (k : ℚ) * ((N / k : ℕ) : ℚ) + k := by
      ring
    rw [hexp]
    linarith

theorem pyMod_add_frac (N k : ℕ) (f : ℚ) (hk : 0 < k) (h0 : 0 ≤ f) (h1 : f < 1) :
    pyMod ((N : ℚ) + f) (k : ℚ) = ((N % k : ℕ) : ℚ) + f := by
  unfold pyMod
  rw [floor_div_add_frac N k f hk h0 h1]
  have hdm : k * (N / k) + N % k = N := Nat.div_add_mod N k
  have hdmq : (k : ℚ) * ((N / k : ℕ) : ℚ) + ((N % k : ℕ) : ℚ) = (N : ℚ) := by
    exact_mod_cast hdm
  rw [Int.cast_natCast]
  linarith

theorem tsFields_eq (N ms : ℕ) (hms : ms < 1000) :
    tsFields ((N : ℚ) + (ms : ℚ) / 1000) =
      (((N / 3600 : ℕ) : ℤ), ((N % 3600 / 60 : ℕ) : ℤ), ((N % 60 : ℕ) : ℤ), (ms : ℤ)) := by
  have h0 : (0 : ℚ) ≤ (ms : ℚ) / 1000 := by positivity
  have h1 : (ms : ℚ) / 1000 < 1 := by
    rw [div_lt_one (by norm_num)]
    exact_mod_cast hms
  unfold tsFields
  have e1 : ⌊((N : ℚ) + (ms : ℚ) / 1000) / ((3600 : ℕ) : ℚ)⌋ = ((N / 3600 : ℕ) : ℤ) :=
    floor_div_add_frac N 3600 _ (by norm_num) h0 h1
  have e2 : pyMod ((N : ℚ) + (ms : ℚ) / 1000) ((3600 : ℕ) : ℚ) =
      ((N % 3600 : ℕ) : ℚ) + (ms : ℚ) / 1000 := pyMod_add_frac N 3600 _ (by norm_num) h0 h1
  have e3 : pyMod ((N : ℚ) + (ms : ℚ) / 1000) ((60 : ℕ) : ℚ) =
      ((N % 60 : ℕ) : ℚ) + (ms : ℚ) / 1000 := pyMod_add_frac N 60 _ (by norm_num) h0 h1
  have e4 : pyMod ((N : ℚ) + (ms : ℚ) / 1000) ((1 : ℕ) : ℚ) =
      ((N % 1 : ℕ) : ℚ) + (ms : ℚ) / 1000 := pyMod_add_frac N 1 _ (by norm_num) h0 h1
  have c1 : ((3600 : ℕ) : ℚ) = (3600 : ℚ) := by norm_num
  have c2 : ((60 : ℕ) : ℚ) = (60 : ℚ) := by norm_num
  have c3 : ((1 : ℕ) : ℚ) = (1 : ℚ) := by norm_num
  rw [c1] at e1 e2
  rw [c2] at e3
  rw [c3] at e4
  rw [e1, e2, e3, e4]
  refine Prod.ext rfl (Prod.ext ?_ (Prod.ext ?_ ?_)) <;> dsimp only
  · have := floor_div_add_frac (N % 3600) 60 ((ms : ℚ) / 1000) (by norm_num) h0 h1
    rw [c2] at this
    exact this
  · exact floor_nat_add_frac (N % 60) _ h0 h1
  · rw [Nat.mod_one]
    push_cast
    rw [zero_add, div_mul_cancel₀ _ (by norm_num : (1000 : ℚ) ≠ 0)]
    exact Int.floor_natCast ms

theorem intToDecPad_natCast (w n : ℕ) : intToDecPad w ((n : ℕ) : ℤ) = zeroPad w (natToDec n) := by
  unfold intToDecPad
  rw [if_neg (by simp), Int.toNat_natCast]

theorem renderTs_eq (sep : Char) (N ms : ℕ) (hms : ms < 1000) :
    renderTs sep ((N : ℚ) + (ms : ℚ) / 1000) =
      zeroPad 2 (natToDec (N / 3600)) ++ ':' :: zeroPad 2 (natToDec (N % 3600 / 60)) ++ ':' ::
        zeroPad 2 (natToDec (N % 60)) ++ sep :: zeroPad 3 (natToDec ms) := by
  unfold renderTs
  rw [tsFields_eq N ms hms]
  dsimp only
  rw [intToDecPad_natCast, intToDecPad_natCast, intToDecPad_natCast, intToDecPad_natCast]

theorem pyFloat_of_no_sign (s : PyStr) (h : ∀ c ∈ s, c ≠ '-' ∧ c ≠ '+') :
    pyFloat s = pyFloatUnsigned s := by
  cases s with
  | nil => rfl
  | cons c r =>
    have hc := h c (List.mem_cons_self c r)
    unfold pyFloat
    split
    · rename_i r1 heq
      injection heq with h1 h2
      exact absurd h1 hc.1
    · rename_i r1 heq
      injection heq with h1 h2
      subst h2
      exact absurd h1 hc.2
    · rfl

theorem zeroPad_len_ge (w : ℕ) (s : PyStr) : w ≤ (zeroPad w s).length := by
  simp only [zeroPad, List.length_append, List.length_replicate]
  omega

theorem isIntPart_zeroPad (w : ℕ) (s : PyStr) (hw : 0 < w)
    (hd : ∀ c ∈ s, c.isDigit = true) : isIntPart (zeroPad w s) = true := by
  unfold isIntPart
  simp only [Bool.and_eq_true, Bool.not_eq_true', List.isEmpty_eq_false, List.all_eq_true]
  exact ⟨zeroPad_ne_nil w s hw, zeroPad_digits w s hd⟩

theorem pyFloatUnsigned_dot (C1 C2 : PyStr) (n1 : C1 ≠ [])
    (d1 : ∀ c ∈ C1, c.isDigit = true) (d2 : ∀ c ∈ C2, c.isDigit = true) :
    pyFloatUnsigned (C1 ++ '.' :: C2) =
      some ((decVal C1 : ℚ) + (decVal C2 : ℚ) / 10 ^ C2.length) := by
  have hdot1 : '.' ∉ C1 := fun hm => absurd (d1 '.' hm) (by decide)
  have hdot2 : '.' ∉ C2 := fun hm => absurd (d2 '.' hm) (by decide)
  unfold pyFloatUnsigned
  rw [splitOnC_append '.' C1 C2 hdot1, splitOnC_single '.' C2 hdot2]
  dsimp only
  rw [if_pos]
  simp only [Bool.and_eq_true, Bool.or_eq_true, Bool.not_eq_true', List.isEmpty_eq_false,
    List.all_eq_true]
  exact ⟨⟨Or.inl n1, d1⟩, d2⟩

theorem pyFloat_dot (C1 C2 : PyStr) (n1 : C1 ≠ [])
    (d1 : ∀ c ∈ C1, c.isDigit = true) (d2 : ∀ c ∈ C2, c.isDigit = true) :
    pyFloat (C1 ++ '.' :: C2) =
      some ((decVal C1 : ℚ) + (decVal C2 : ℚ) / 10 ^ C2.length) := by
  rw [pyFloat_of_no_sign, pyFloatUnsigned_dot C1 C2 n1 d1 d2]
  intro c hc
  rcases List.mem_append.mp hc with h | h
  · exact ⟨digit_ne_minus c (d1 c h), digit_ne_plus c (d1 c h)⟩
  · rcases List.mem_cons.mp h with rfl | h2
    · exact ⟨by decide, by decide⟩
    · exact ⟨digit_ne_minus c (d2 c h2), digit_ne_plus c (d2 c h2)⟩

/-- The mixed `++`/`::` notation groups as appends of cons-cells; this is
its fully right-nested normal form. -/
theorem tsShape_norm (A B C1 C2 : PyStr) :
    A ++ ':' :: B ++ ':' :: C1 ++ '.' :: C2 =
      A ++ (':' :: (B ++ (':' :: (C1 ++ ('.' :: C2))))) := by
  simp

theorem canonical_split (A B C : PyStr) (dA : ∀ c ∈ A, c.isDigit = true)
    (dB : ∀ c ∈ B, c.isDigit = true) (hC : ':' ∉ C) :
    splitOnC ':' (A ++ (':' :: (B ++ (':' :: C)))) = [A, B, C] := by
  have hColonA : ':' ∉ A := fun hm => absurd (dA ':' hm) (by decide)
  have hColonB : ':' ∉ B := fun hm => absurd (dB ':' hm) (by decide)
  rw [splitOnC_append ':' A _ hColonA, splitOnC_append ':' B _ hColonB,
    splitOnC_single ':' C hC]

theorem canonical_no_space (A B C1 C2 : PyStr) (dA : ∀ c ∈ A, c.isDigit = true)
    (dB : ∀ c ∈ B, c.isDigit = true) (dC1 : ∀ c ∈ C1, c.isDigit = true)
    (dC2 : ∀ c ∈ C2, c.isDigit = true) :
    pyStrip (A ++ (':' :: (B ++ (':' :: (C1 ++ ('.' :: C2)))))) =
      A ++ (':' :: (B ++ (':' :: (C1 ++ ('.' :: C2))))) := by
  apply pyStrip_eq_self
  intro c hc
  simp only [List.mem_append, List.mem_cons] at hc
  rcases hc with h | h | h | h | h | h | h
  · exact isPySpace_eq_false_of_digit c (dA c h)
  · subst h; decide
  · exact isPySpace_eq_false_of_digit c (dB c h)
  · subst h; decide
  · exact isPySpace_eq_false_of_digit c (dC1 c h)
  · subst h; decide
  · exact isPySpace_eq_false_of_digit c (dC2 c h)

/-- Parsing the canonical rendering `HH:MM:SS.mmm` recovers the components. -/
theorem parse_canonical (HH MM SS MS : ℕ) (hms : MS < 1000) :
    parseTimestamp (zeroPad 2 (natToDec HH) ++ ':' :: zeroPad 2 (natToDec MM) ++ ':' ::
      zeroPad 2 (natToDec SS) ++ '.' :: zeroPad 3 (natToDec MS)) =
      (HH : ℚ) * 3600 + (MM : ℚ) * 60 + ((SS : ℚ) + (MS : ℚ) / 1000) := by
  have dA : ∀ c ∈ zeroPad 2 (natToDec HH), c.isDigit = true :=
    zeroPad_digits 2 _ (natToDec_digits HH)
  have dB : ∀ c ∈ zeroPad 2 (natToDec MM), c.isDigit = true :=
    zeroPad_digits 2 _ (natToDec_digits MM)
  have dC1 : ∀ c ∈ zeroPad 2 (natToDec SS), c.isDigit = true :=
    zeroPad_digits 2 _ (natToDec_digits SS)
  have dC2 : ∀ c ∈ zeroPad 3 (natToDec MS), c.isDigit = true :=
    zeroPad_digits 3 _ (natToDec_digits MS)
  have hColonC : ':' ∉ zeroPad 2 (natToDec SS) ++ '.' :: zeroPad 3 (natToDec MS) := by
    intro hm
    rcases List.mem_append.mp hm with h | h
    · exact absurd (dC1 ':' h) (by decide)
    · rcases List.mem_cons.mp h with he | h2
      · exact absurd he (by decide)
      · exact absurd (dC2 ':' h2) (by decide)
  unfold parseTimestamp parseTimestampCore
  rw [tsShape_norm, canonical_no_space _ _ _ _ dA dB dC1 dC2,
    canonical_split _ _ _ dA dB (by simpa using hColonC)]
  dsimp only
  rw [pyInt_digits _ (zeroPad_ne_nil 2 _ (by norm_num)) dA,
    pyInt_digits _ (zeroPad_ne_nil 2 _ (by norm_num)) dB,
    pyFloat_dot _ _ (zeroPad_ne_nil 2 _ (by norm_num)) dC1 dC2]
  dsimp only [Option.getD_some]
  rw [decVal_zeroPad, decVal_zeroPad, decVal_zeroPad, decVal_zeroPad,
    decVal_natToDec, decVal_natToDec, decVal_natToDec, decVal_natToDec,
    zeroPad_length 3 _ (natToDec_length_le 3 MS (by norm_num [hms]))]
  push_cast
  norm_num

/-- The rendered string is in canonical shape. -/
theorem canonical_rendered (HH MM SS MS : ℕ) (hM : MM < 60) (hS : SS < 60)
    (hms : MS < 1000) :
    CanonicalTimestamp (zeroPad 2 (natToDec HH) ++ ':' :: zeroPad 2 (natToDec MM) ++ ':' ::
      zeroPad 2 (natToDec SS) ++ '.' :: zeroPad 3 (natToDec MS)) = true := by
  have dA : ∀ c ∈ zeroPad 2 (natToDec HH), c.isDigit = true :=
    zeroPad_digits 2 _ (natToDec_digits HH)
  have dB : ∀ c ∈ zeroPad 2 (natToDec MM), c.isDigit = true :=
    zeroPad_digits 2 _ (natToDec_digits MM)
  have dC1 : ∀ c ∈ zeroPad 2 (natToDec SS), c.isDigit = true :=
    zeroPad_digits 2 _ (natToDec_digits SS)
  have dC2 : ∀ c ∈ zeroPad 3 (natToDec MS), c.isDigit = true :=
    zeroPad_digits 3 _ (natToDec_digits MS)
  have hColonC : ':' ∉ zeroPad 2 (natToDec SS) ++ '.' :: zeroPad 3 (natToDec MS) := by
    intro hm
    rcases List.mem_append.mp hm with h | h
    · exact absurd (dC1 ':' h) (by decide)
    · rcases List.mem_cons.mp h with he | h2
      · exact absurd he (by decide)
      · exact absurd (dC2 ':' h2) (by decide)
  have hdot1 : '.' ∉ zeroPad 2 (natToDec SS) := fun hm => absurd (dC1 '.' hm) (by decide)
  have hdot2 : '.' ∉ zeroPad 3 (natToDec MS) := fun hm => absurd (dC2 '.' hm) (by decide)
  unfold CanonicalTimestamp
  rw [tsShape_norm, canonical_split _ _ _ dA dB (by simpa using hColonC)]
  dsimp only
  rw [splitOnC_append '.' _ _ hdot1, splitOnC_single '.' _ hdot2]
  dsimp only
  simp only [Bool.and_eq_true, beq_iff_eq, decide_eq_true_eq]
  repeat' apply And.intro
  · exact isIntPart_zeroPad 2 _ (by norm_num) (natToDec_digits HH)
  · exact zeroPad_len_ge 2 _
  · exact isIntPart_zeroPad 2 _ (by norm_num) (natToDec_digits MM)
  · exact zeroPad_length 2 _ (natToDec_length_le 2 MM (by omega))
  · rw [decVal_zeroPad, decVal_natToDec]; exact hM
  · exact isIntPart_zeroPad 2 _ (by norm_num) (natToDec_digits SS)
  · exact zeroPad_length 2 _ (natToDec_length_le 2 SS (by omega))
  · rw [decVal_zeroPad, decVal_natToDec]; exact hS
  · exact zeroPad_length 3 _ (natToDec_length_le 3 MS (by omega))
  · exact List.all_eq_true.mpr (zeroPad_digits 3 _ (natToDec_digits MS))

theorem secPart_parse (p : PyStr) (h : isSecPart p = true) :
    ∃ a b : PyStr, p = a ++ '.' :: b ∧ a ≠ [] ∧ (∀ c ∈ a, c.isDigit = true) ∧
      (∀ c ∈ b, c.isDigit = true) ∧ b.length = 3 ∧
      pyFloat p = some ((decVal a : ℚ) + (decVal b : ℚ) / 1000) := by
  unfold isSecPart at h
  rcases hdp : splitOnC '.' p with _ | ⟨a, _ | ⟨b, _ | ⟨x, r⟩⟩⟩
  · exact absurd hdp (splitOnC_ne_nil _ _)
  · rw [hdp] at h
    exact absurd h (by simp)
  · rw [hdp] at h
    dsimp only at h
    simp only [Bool.and_eq_true, Bool.not_eq_true', List.isEmpty_eq_false, beq_iff_eq,
      List.all_eq_true] at h
    obtain ⟨⟨⟨hne, hda⟩, hlen⟩, hdb⟩ := h
    have hp_eq : a ++ '.' :: b = p := by
      have hj := joinSep_splitOnC '.' p
      rw [hdp] at hj
      exact hj
    refine ⟨a, b, hp_eq.symm, hne, hda, hdb, hlen, ?_⟩
    rw [← hp_eq, pyFloat_dot a b hne hda hdb, hlen]
    norm_num
  · rw [hdp] at h
    exact absurd h (by simp)

theorem strip_id_of_ts_chars (s : PyStr)
    (h : ∀ c ∈ s, c.isDigit = true ∨ c = ':' ∨ c = '.') : pyStrip s = s := by
  apply pyStrip_eq_self
  intro c hc
  rcases h c hc with hd | rfl | rfl
  · exact isPySpace_eq_false_of_digit c hd
  · decide
  · decide

/-- Every syntactically valid timestamp parses to a value of the form
`N + ms/1000` with `N ms : ℕ` and `ms < 1000`. -/
theorem valid_parse (s : PyStr) (h : ValidTimestamp s = true) :
    ∃ N ms : ℕ, ms < 1000 ∧ parseTimestamp s = (N : ℚ) + (ms : ℚ) / 1000 := by
  unfold ValidTimestamp at h
  rcases hsp : splitOnC ':' s with _ | ⟨p1, _ | ⟨p2, _ | ⟨p3, _ | ⟨p4, r4⟩⟩⟩⟩
  · exact absurd hsp (splitOnC_ne_nil _ _)
  · rw [hsp] at h
    dsimp only at h
    obtain ⟨a, b, hp, hane, hda, hdb, hblen, hpf⟩ := secPart_parse p1 h
    have hs_eq : p1 = s := by
      have hj := joinSep_splitOnC ':' s
      rw [hsp] at hj
      exact hj
    have hchars : ∀ c ∈ s, c.isDigit = true ∨ c = ':' ∨ c = '.' := by
      intro c hc
      rw [← hs_eq, hp] at hc
      rcases List.mem_append.mp hc with h1 | h1
      · exact Or.inl (hda c h1)
      · rcases List.mem_cons.mp h1 with rfl | h2
        · exact Or.inr (Or.inr rfl)
        · exact Or.inl (hdb c h2)
    refine ⟨decVal a, decVal b, ?_, ?_⟩
    · have := decVal_lt b hdb
      rw [hblen] at this
      simpa using this
    · unfold parseTimestamp parseTimestampCore
      rw [strip_id_of_ts_chars s hchars, hsp]
      dsimp only
      rw [hpf]
      rfl
  · rw [hsp] at h
    dsimp only at h
    simp only [Bool.and_eq_true] at h
    obtain ⟨h1, h2⟩ := h
    simp only [isIntPart, Bool.and_eq_true, Bool.not_eq_true', List.isEmpty_eq_false,
      List.all_eq_true] at h1
    obtain ⟨h1ne, h1d⟩ := h1
    obtain ⟨a, b, hp, hane, hda, hdb, hblen, hpf⟩ := secPart_parse p2 h2
    have hs_eq : p1 ++ ':' :: p2 = s := by
      have hj := joinSep_splitOnC ':' s
      rw [hsp] at hj
      exact hj
    have hchars : ∀ c ∈ s, c.isDigit = true ∨ c = ':' ∨ c = '.' := by
      intro c hc
      rw [← hs_eq] at hc
      rcases List.mem_append.mp hc with hm | hm
      · exact Or.inl (h1d c hm)
      · rcases List.mem_cons.mp hm with rfl | hm2
        · exact Or.inr (Or.inl rfl)
        · rw [hp] at hm2
          rcases List.mem_append.mp hm2 with hm3 | hm3
          · exact Or.inl (hda c hm3)
          · rcases List.mem_cons.mp hm3 with rfl | hm4
            · exact Or.inr (Or.inr rfl)
            · exact Or.inl (hdb c hm4)
    refine ⟨decVal p1 * 60 + decVal a, decVal b, ?_, ?_⟩
    · have := decVal_lt b hdb
      rw [hblen] at this
      simpa using this
    · unfold parseTimestamp parseTimestampCore
      rw [strip_id_of_ts_chars s hchars, hsp]
      dsimp only
      rw [pyInt_digits p1 h1ne h1d, hpf]
      dsimp only [Option.getD_some]
      push_cast
      ring
  · rw [hsp] at h
    dsimp only at h
    simp only [Bool.and_eq_true] at h
    obtain ⟨⟨h0, h1⟩, h2⟩ := h
    simp only [isIntPart, Bool.and_eq_true, Bool.not_eq_true', List.isEmpty_eq_false,
      List.all_eq_true] at h0 h1
    obtain ⟨h0ne, h0d⟩ := h0
    obtain ⟨h1ne, h1d⟩ := h1
    obtain ⟨a, b, hp, hane, hda, hdb, hblen, hpf⟩ := secPart_parse p3 h2
    have hs_eq : p1 ++ ':' :: (p2 ++ ':' :: p3) = s := by
      have hj := joinSep_splitOnC ':' s
      rw [hsp] at hj
      exact hj
    have hchars : ∀ c ∈ s, c.isDigit = true ∨ c = ':' ∨ c = '.' := by
      intro c hc
      rw [← hs_eq] at hc
      rcases List.mem_append.mp hc with hm | hm
      · exact Or.inl (h0d c hm)
      · rcases List.mem_cons.mp hm with rfl | hm2
        · exact Or.inr (Or.inl rfl)
        · rcases List.mem_append.mp hm2 with hm3 | hm3
          · exact Or.inl (h1d c hm3)
          · rcases List.mem_cons.mp hm3 with rfl | hm4
            · exact Or.inr (Or.inl rfl)
            · rw [hp] at hm4
              rcases List.mem_append.mp hm4 with hm5 | hm5
              · exact Or.inl (hda c hm5)
              · rcases List.mem_cons.mp hm5 with rfl | hm6
                · exact Or.inr (Or.inr rfl)
                · exact Or.inl (hdb c hm6)
    refine ⟨decVal p1 * 3600 + decVal p2 * 60 + decVal a, decVal b, ?_, ?_⟩
    · have := decVal_lt b hdb
      rw [hblen] at this
      simpa using this
    · unfold parseTimestamp parseTimestampCore
      rw [strip_id_of_ts_chars s hchars, hsp]
      dsimp only
      rw [pyInt_digits p1 h0ne h0d, pyInt_digits p2 h1ne h1d, hpf]
      dsimp only [Option.getD_some]
      push_cast
      ring
  · rw [hsp] at h
    exact absurd h (by simp)

/-- In the exact-rational idealization (no binary rounding, no `int()`
truncation loss), formatting the parsed value of any syntactically valid
timestamp yields a canonical zero-padded `HH:MM:SS.mmm` string denoting
the same instant.  Under the program's binary64 arithmetic this round-trip
FAILS in general (`float_roundtrip_drops_millisecond`); it survives for
exactly representable values (`float_roundtrip_whole_seconds`). -/
theorem timestamp_roundtrip_canonical (s : PyStr) (hv : ValidTimestamp s = true) :
    parseTimestamp (formatTimestampVtt (parseTimestamp s)) = parseTimestamp s ∧
    CanonicalTimestamp (formatTimestampVtt (parseTimestamp s)) = true := by
  obtain ⟨N, ms, hms, hval⟩ := valid_parse s hv
  rw [hval]
  unfold formatTimestampVtt
  rw [renderTs_eq '.' N ms hms]
  have hM : N % 3600 / 60 < 60 := by
    have : N % 3600 < 3600 := Nat.mod_lt N (by norm_num)
    omega
  have hS : N % 60 < 60 := Nat.mod_lt N (by norm_num)
  constructor
  · rw [parse_canonical (N / 3600) (N % 3600 / 60) (N % 60) ms hms]
    have hqn : N / 3600 * 3600 + N % 3600 / 60 * 60 + N % 60 = N := by omega
    have hq : ((N / 3600 : ℕ) : ℚ) * 3600 + ((N % 3600 / 60 : ℕ) : ℚ) * 60 +
        ((N % 60 : ℕ) : ℚ) = (N : ℚ) := by
      exact_mod_cast congrArg (fun k : ℕ => (k : ℚ)) hqn
    linarith
  · exact canonical_rendered (N / 3600) (N % 3600 / 60) (N % 60) ms hM hS hms

/-- The idealized round-trip at the concrete valid input `1:2:3.456`. -/
theorem timestamp_roundtrip_witness :
    parseTimestamp (formatTimestampVtt (parseTimestamp tsWitnessStr)) =
      parseTimestamp tsWitnessStr ∧
    CanonicalTimestamp (formatTimestampVtt (parseTimestamp tsWitnessStr)) = true :=
  timestamp_roundtrip_canonical tsWitnessStr (by decide)

theorem rhe_intCast (n : ℤ) : rhe ((n : ℚ)) = n := by
  unfold rhe
  rw [Int.floor_intCast]
  rw [if_pos]
  rw [sub_self]
  norm_num

theorem rhe_ge_floor (x : ℚ) : ⌊x⌋ ≤ rhe x := by
  unfold rhe
  dsimp only
  split
  · exact le_refl _
  · split
    · omega
    · split <;> omega

theorem rhe_le_floor_add_one (x : ℚ) : rhe x ≤ ⌊x⌋ + 1 := by
  unfold rhe
  dsimp only
  split
  · omega
  · split
    · omega
    · split <;> omega

theorem flog2Aux_eq (f : ℕ) : ∀ (q : ℚ) (e : ℤ), (2 : ℚ) ^ e ≤ q → q < (2 : ℚ) ^ (e + 1) →
    e.natAbs ≤ f → flog2Aux f q = e := by
  induction f with
  | zero =>
    intro q e h1 h2 hf
    have he : e = 0 := by omega
    subst he
    rfl
  | succ f ih =>
    intro q e h1 h2 hf
    show flog2Aux (f + 1) q = e
    rw [flog2Aux]
    by_cases hq2 : 2 ≤ q
    · rw [if_pos hq2]
      have he1 : 1 ≤ e := by
        by_contra hc
        push_neg at hc
        have hle : (2 : ℚ) ^ (e + 1) ≤ (2 : ℚ) ^ (1 : ℤ) :=
          zpow_le_zpow_right₀ one_le_two (by omega)
        have : q < 2 := lt_of_lt_of_le h2 (by simpa using hle)
        linarith
      have hlow : (2 : ℚ) ^ (e - 1) ≤ q / 2 := by
        rw [le_div_iff (by norm_num : (0:ℚ) < 2)]
        calc (2 : ℚ) ^ (e - 1) * 2 = (2 : ℚ) ^ (e - 1 + 1) :=
              (zpow_add_one₀ (by norm_num : (2:ℚ) ≠ 0) _).symm
          _ = (2 : ℚ) ^ e := by norm_num
          _ ≤ q := h1
      have hhigh : q / 2 < (2 : ℚ) ^ (e - 1 + 1) := by
        rw [div_lt_iff (by norm_num : (0:ℚ) < 2)]
        calc q < (2 : ℚ) ^ (e + 1) := h2
          _ = (2 : ℚ) ^ (e - 1 + 1) * 2 := by
              rw [← zpow_add_one₀ (by norm_num : (2:ℚ) ≠ 0)]
              congr 1
              omega
      rw [ih (q / 2) (e - 1) hlow hhigh (by omega)]
      omega
    · rw [if_neg hq2]
      push_neg at hq2
      by_cases hq1 : q < 1
      · rw [if_pos hq1]
        have he : e ≤ -1 := by
          by_contra hc
          push_neg at hc
          have hle : (2 : ℚ) ^ (0 : ℤ) ≤ (2 : ℚ) ^ e :=
            zpow_le_zpow_right₀ one_le_two (by omega)
          have : (1 : ℚ) ≤ q := le_trans (by simpa using hle) h1
          linarith
        have hlow : (2 : ℚ) ^ (e + 1) ≤ q * 2 := by
          calc (2 : ℚ) ^ (e + 1) = (2 : ℚ) ^ e * 2 := zpow_add_one₀ (by norm_num) e
            _ ≤ q * 2 := by linarith [h1]
        have hhigh : q * 2 < (2 : ℚ) ^ (e + 1 + 1) := by
          calc q * 2 < (2 : ℚ) ^ (e + 1) * 2 := by linarith [h2]
            _ = (2 : ℚ) ^ (e + 1 + 1) := (zpow_add_one₀ (by norm_num) _).symm
        rw [ih (q * 2) (e + 1) hlow hhigh (by omega)]
        omega
      · rw [if_neg hq1]
        push_neg at hq1
        have h1e : e < 1 := by
          by_contra hc
          push_neg at hc
          have hle : (2 : ℚ) ^ (1 : ℤ) ≤ (2 : ℚ) ^ e :=
            zpow_le_zpow_right₀ one_le_two hc
          have : (2 : ℚ) ≤ q := le_trans (by simpa using hle) h1
          linarith
        have h0e : 0 ≤ e := by
          by_contra hc
          push_neg at hc
          have hle : (2 : ℚ) ^ (e + 1) ≤ (2 : ℚ) ^ (0 : ℤ) :=
            zpow_le_zpow_right₀ one_le_two (by omega)
          have : q < 1 := lt_of_lt_of_le h2 (by simpa using hle)
          linarith
        omega

theorem flog2_eq_log (q : ℚ) (h1 : 1 ≤ q) (h2 : q ≤ (2 : ℚ) ^ (4500 : ℤ)) :
    flog2 q = Int.log 2 q := by
  have h0 : 0 < q := by linarith
  have hl : (2 : ℚ) ^ (Int.log 2 q) ≤ q := Int.zpow_log_le_self (by norm_num) h0
  have hu : q < (2 : ℚ) ^ (Int.log 2 q + 1) := Int.lt_zpow_succ_log_self (by norm_num) q
  apply flog2Aux_eq 9000 q _ hl hu
  have hnn : (0 : ℤ) ≤ Int.log 2 q := by
    apply (Int.zpow_le_iff_le_log (by norm_num) h0).mp
    simpa using h1
  have hub : Int.log 2 q < 4501 := by
    apply (Int.lt_zpow_iff_log_lt (by norm_num) h0).mp
    calc q ≤ (2 : ℚ) ^ (4500 : ℤ) := h2
      _ < (2 : ℚ) ^ (4501 : ℤ) := zpow_lt_zpow_right₀ one_lt_two (by norm_num)
  omega

theorem two_zpow_mul_zpow (a b : ℤ) : (2 : ℚ) ^ a * (2 : ℚ) ^ b = (2 : ℚ) ^ (a + b) :=
  (zpow_add₀ (by norm_num : (2:ℚ) ≠ 0) a b).symm

theorem two_zpow_53 : ((2 ^ 53 : ℤ) : ℚ) = (2 : ℚ) ^ (53 : ℤ) := by
  rw [show ((53 : ℤ)) = ((53 : ℕ) : ℤ) by norm_num, zpow_natCast]
  push_cast
  norm_num

theorem two_zpow_52 : ((2 ^ 52 : ℤ) : ℚ) = (2 : ℚ) ^ (52 : ℤ) := by
  rw [show ((52 : ℤ)) = ((52 : ℕ) : ℤ) by norm_num, zpow_natCast]
  push_cast
  norm_num

theorem rnd53Pos_natCast (n : ℕ) (h1 : 1 ≤ n) (h2 : n < 2 ^ 53) :
    rnd53Pos ((n : ℚ)) = (n : ℚ) := by
  have h1q : (1 : ℚ) ≤ (n : ℚ) := by exact_mod_cast h1
  have h0 : (0 : ℚ) < (n : ℚ) := by linarith
  have h2q : (n : ℚ) < (2 : ℚ) ^ (53 : ℤ) := by
    rw [← two_zpow_53]
    exact_mod_cast h2
  have hL0 : (0 : ℤ) ≤ Int.log 2 ((n : ℚ)) := by
    apply (Int.zpow_le_iff_le_log (by norm_num) h0).mp
    simpa using h1q
  have hL52 : Int.log 2 ((n : ℚ)) < 53 := by
    apply (Int.lt_zpow_iff_log_lt (by norm_num) h0).mp
    exact h2q
  set L := Int.log 2 ((n : ℚ)) with hL
  have hflog : flog2 ((n : ℚ)) = L := by
    apply flog2_eq_log _ h1q
    calc (n : ℚ) ≤ (2 : ℚ) ^ (53 : ℤ) := h2q.le
      _ ≤ (2 : ℚ) ^ (4500 : ℤ) := zpow_le_zpow_right₀ one_le_two (by norm_num)
  unfold rnd53Pos
  rw [hflog]
  set k : ℕ := (52 - L).toNat with hk
  have hkL : (52 - L : ℤ) = (k : ℤ) := (Int.toNat_of_nonneg (by omega)).symm
  have hxint : (n : ℚ) / (2 : ℚ) ^ (L - 52) = ((n * 2 ^ k : ℕ) : ℚ) := by
    rw [div_eq_mul_inv, ← zpow_neg]
    rw [show (-(L - 52) : ℤ) = (52 - L : ℤ) by ring, hkL, zpow_natCast]
    push_cast
    ring
  rw [hxint]
  rw [show ((n * 2 ^ k : ℕ) : ℚ) = (((n * 2 ^ k : ℕ) : ℤ) : ℚ) by push_cast; ring]
  rw [rhe_intCast]
  push_cast
  rw [mul_assoc, ← zpow_natCast (2 : ℚ) k, two_zpow_mul_zpow]
  rw [show ((k : ℤ) + (L - 52) : ℤ) = 0 by omega]
  norm_num

theorem rnd53_natCast (n : ℕ) (h : n < 2 ^ 53) : rnd53 ((n : ℚ)) = (n : ℚ) := by
  unfold rnd53
  rcases Nat.eq_zero_or_pos n with h0 | h0
  · subst h0
    norm_num
  · have hpos : (0 : ℚ) < (n : ℚ) := by exact_mod_cast h0
    rw [if_neg (ne_of_gt hpos), if_neg (not_lt.mpr hpos.le)]
    exact rnd53Pos_natCast n h0 h

theorem rnd53_zero : rnd53 0 = 0 := by
  unfold rnd53
  rw [if_pos rfl]

theorem rnd53_neg (q : ℚ) : rnd53 (-q) = -rnd53 q := by
  unfold rnd53
  rcases lt_trichotomy q 0 with h | h | h
  · have h1 : (0 : ℚ) < -q := by linarith
    rw [if_neg (ne_of_gt h1), if_neg (not_lt.mpr h1.le), if_neg (ne_of_lt h), if_pos h,
      neg_neg]
  · subst h
    norm_num
  · have h1 : -q < 0 := by linarith
    rw [if_neg (ne_of_lt h1), if_pos h1, if_neg (ne_of_gt h), if_neg (not_lt.mpr h.le),
      neg_neg]

theorem rnd53_intCast (n : ℤ) (h : n.natAbs < 2 ^ 53) : rnd53 ((n : ℚ)) = (n : ℚ) := by
  rcases le_or_lt 0 n with hn | hn
  · have hc : ((n : ℤ) : ℚ) = ((n.toNat : ℕ) : ℚ) := by
      rw [← Int.cast_natCast, Int.toNat_of_nonneg hn]
    rw [hc, rnd53_natCast _ (by omega)]
  · have hq : ((n : ℤ) : ℚ) = -((n.natAbs : ℕ) : ℚ) := by
      rw [← Int.cast_natCast, Int.natCast_natAbs, ← Int.cast_neg, abs_of_neg hn, neg_neg]
    rw [hq, rnd53_neg, rnd53_natCast _ h]

theorem rnd53Pos_lt_max (q : ℚ) (h1 : 1 ≤ q) (h2 : q ≤ (2 : ℚ) ^ (1020 : ℤ)) :
    rnd53Pos q < (2 : ℚ) ^ (1024 : ℤ) := by
  have h0 : 0 < q := by linarith
  have hL0 : (0 : ℤ) ≤ Int.log 2 q := by
    apply (Int.zpow_le_iff_le_log (by norm_num) h0).mp
    simpa using h1
  have hL1020 : Int.log 2 q < 1021 := by
    apply (Int.lt_zpow_iff_log_lt (by norm_num) h0).mp
    calc q ≤ (2 : ℚ) ^ (1020 : ℤ) := h2
      _ < (2 : ℚ) ^ (1021 : ℤ) := zpow_lt_zpow_right₀ one_lt_two (by norm_num)
  set L := Int.log 2 q with hL
  have hu : q < (2 : ℚ) ^ (L + 1) := Int.lt_zpow_succ_log_self (by norm_num) q
  have hflog : flog2 q = L := by
    apply flog2_eq_log _ h1
    calc q ≤ (2 : ℚ) ^ (1020 : ℤ) := h2
      _ ≤ (2 : ℚ) ^ (4500 : ℤ) := zpow_le_zpow_right₀ one_le_two (by norm_num)
  unfold rnd53Pos
  rw [hflog]
  have hppos : (0 : ℚ) < (2 : ℚ) ^ (L - 52) := zpow_pos (by norm_num) _
  have hxlt : q / (2 : ℚ) ^ (L - 52) < ((2 ^ 53 : ℤ) : ℚ) := by
    rw [div_lt_iff hppos]
    calc q < (2 : ℚ) ^ (L + 1) := hu
      _ = ((2 ^ 53 : ℤ) : ℚ) * (2 : ℚ) ^ (L - 52) := by
          rw [two_zpow_53, two_zpow_mul_zpow, show ((53 : ℤ) + (L - 52)) = L + 1 by omega]
  have hfl : ⌊q / (2 : ℚ) ^ (L - 52)⌋ < 2 ^ 53 := Int.floor_lt.mpr hxlt
  have hrhe : rhe (q / (2 : ℚ) ^ (L - 52)) ≤ 2 ^ 53 := by
    have := rhe_le_floor_add_one (q / (2 : ℚ) ^ (L - 52))
    omega
  calc (rhe (q / (2 : ℚ) ^ (L - 52)) : ℚ) * (2 : ℚ) ^ (L - 52)
      ≤ ((2 ^ 53 : ℤ) : ℚ) * (2 : ℚ) ^ (L - 52) := by
        apply mul_le_mul_of_nonneg_right _ hppos.le
        exact_mod_cast hrhe
    _ = (2 : ℚ) ^ (L + 1) := by
        rw [two_zpow_53, two_zpow_mul_zpow, show ((53 : ℤ) + (L - 52)) = L + 1 by omega]
    _ ≤ (2 : ℚ) ^ (1021 : ℤ) := zpow_le_zpow_right₀ one_le_two (by omega)
    _ < (2 : ℚ) ^ (1024 : ℤ) := zpow_lt_zpow_right₀ one_lt_two (by norm_num)

theorem rnd53Pos_nonneg (q : ℚ) (h : 0 < q) : 0 ≤ rnd53Pos q := by
  unfold rnd53Pos
  have hppos : (0 : ℚ) < (2 : ℚ) ^ (flog2 q - 52) := zpow_pos (by norm_num) _
  have hx : (0 : ℚ) ≤ q / (2 : ℚ) ^ (flog2 q - 52) := by positivity
  have hfl : (0 : ℤ) ≤ ⌊q / (2 : ℚ) ^ (flog2 q - 52)⌋ := Int.floor_nonneg.mpr hx
  have hge := rhe_ge_floor (q / (2 : ℚ) ^ (flog2 q - 52))
  have hcast : (0 : ℚ) ≤ (rhe (q / (2 : ℚ) ^ (flog2 q - 52)) : ℚ) := by
    exact_mod_cast le_trans hfl hge
  exact mul_nonneg hcast hppos.le

theorem rnd53_nonneg (q : ℚ) (h : 0 ≤ q) : 0 ≤ rnd53 q := by
  unfold rnd53
  rcases eq_or_lt_of_le h with h0 | h0
  · rw [if_pos h0.symm]
  · rw [if_neg (ne_of_gt h0), if_neg (not_lt.mpr h0.le)]
    exact rnd53Pos_nonneg q h0

theorem rnd53Pos_ge_big (q : ℚ) (h1 : (2 : ℚ) ^ (1024 : ℤ) ≤ q)
    (h2 : q ≤ (2 : ℚ) ^ (4000 : ℤ)) :
    (2 : ℚ) ^ (1024 : ℤ) ≤ rnd53Pos q := by
  have h1' : (1 : ℚ) ≤ q := by
    have h12 : (2 : ℚ) ^ (0 : ℤ) ≤ (2 : ℚ) ^ (1024 : ℤ) :=
      zpow_le_zpow_right₀ one_le_two (by norm_num)
    simpa using le_trans h12 h1
  have h0 : 0 < q := by linarith
  have hL1024 : (1024 : ℤ) ≤ Int.log 2 q := by
    apply (Int.zpow_le_iff_le_log (by norm_num) h0).mp
    exact h1
  set L := Int.log 2 q with hL
  have hl : (2 : ℚ) ^ L ≤ q := Int.zpow_log_le_self (by norm_num) h0
  have hflog : flog2 q = L := by
    apply flog2_eq_log _ h1'
    calc q ≤ (2 : ℚ) ^ (4000 : ℤ) := h2
      _ ≤ (2 : ℚ) ^ (4500 : ℤ) := zpow_le_zpow_right₀ one_le_two (by norm_num)
  unfold rnd53Pos
  rw [hflog]
  have hppos : (0 : ℚ) < (2 : ℚ) ^ (L - 52) := zpow_pos (by norm_num) _
  have hxge : ((2 ^ 52 : ℤ) : ℚ) ≤ q / (2 : ℚ) ^ (L - 52) := by
    rw [le_div_iff hppos]
    calc ((2 ^ 52 : ℤ) : ℚ) * (2 : ℚ) ^ (L - 52) = (2 : ℚ) ^ L := by
          rw [two_zpow_52, two_zpow_mul_zpow, show ((52 : ℤ) + (L - 52)) = L by omega]
      _ ≤ q := hl
  have hfl : (2 ^ 52 : ℤ) ≤ ⌊q / (2 : ℚ) ^ (L - 52)⌋ := Int.le_floor.mpr hxge
  have hrhe : (2 ^ 52 : ℤ) ≤ rhe (q / (2 : ℚ) ^ (L - 52)) := by
    have := rhe_ge_floor (q / (2 : ℚ) ^ (L - 52))
    omega
  calc (2 : ℚ) ^ (1024 : ℤ) ≤ (2 : ℚ) ^ L := zpow_le_zpow_right₀ one_le_two (by omega)
    _ = ((2 ^ 52 : ℤ) : ℚ) * (2 : ℚ) ^ (L - 52) := by
        rw [two_zpow_52, two_zpow_mul_zpow, show ((52 : ℤ) + (L - 52)) = L by omega]
    _ ≤ (rhe (q / (2 : ℚ) ^ (L - 52)) : ℚ) * (2 : ℚ) ^ (L - 52) := by
        apply mul_le_mul_of_nonneg_right _ hppos.le
        exact_mod_cast hrhe

theorem dblMax_eq : dblMax = (2 : ℚ) ^ (1024 : ℤ) := by
  unfold dblMax
  rw [show ((1024 : ℤ)) = ((1024 : ℕ) : ℤ) by norm_num, zpow_natCast]
  push_cast
  ring

theorem rnd53_int_lt_max (n : ℤ) (h : n.natAbs ≤ 10 ^ 305) : |rnd53 ((n : ℚ))| < dblMax := by
  rw [dblMax_eq]
  have habs : |rnd53 ((n : ℚ))| = rnd53 ((n.natAbs : ℕ) : ℚ) := by
    rcases le_or_lt 0 n with hn | hn
    · rw [abs_of_nonneg (rnd53_nonneg _ (by exact_mod_cast hn))]
      congr 1
      rw [← Int.cast_natCast, Int.natCast_natAbs, abs_of_nonneg hn]
    · have hq : ((n : ℤ) : ℚ) = -((n.natAbs : ℕ) : ℚ) := by
        rw [← Int.cast_natCast, Int.natCast_natAbs, ← Int.cast_neg, abs_of_neg hn, neg_neg]
      rw [hq, rnd53_neg, abs_neg]
      exact abs_of_nonneg (rnd53_nonneg _ (by positivity))
  rw [habs]
  rcases Nat.eq_zero_or_pos n.natAbs with h0 | h0
  · rw [h0, Nat.cast_zero, rnd53_zero]
    exact zpow_pos (by norm_num) _
  · unfold rnd53
    have hpos : (0 : ℚ) < ((n.natAbs : ℕ) : ℚ) := by exact_mod_cast h0
    rw [if_neg (ne_of_gt hpos), if_neg (not_lt.mpr hpos.le)]
    apply rnd53Pos_lt_max _ (by exact_mod_cast h0)
    calc ((n.natAbs : ℕ) : ℚ) ≤ ((10 ^ 305 : ℕ) : ℚ) := by exact_mod_cast h
      _ ≤ (2 : ℚ) ^ (1020 : ℤ) := by
          rw [show ((1020 : ℤ)) = ((1020 : ℕ) : ℤ) by norm_num, zpow_natCast]
          exact_mod_cast (by norm_num : (10 ^ 305 : ℕ) ≤ 2 ^ 1020)

theorem truncD_natCast (n : ℕ) : truncD ((n : ℚ)) = ((n : ℕ) : ℤ) := by
  unfold truncD
  rw [if_pos (by positivity), Int.floor_natCast]

theorem truncD_zero : truncD 0 = 0 := by
  unfold truncD
  rw [if_pos (le_refl 0), Int.floor_zero]

theorem fMul_zero_left (x : ℚ) : fMul 0 x = 0 := by
  unfold fMul
  rw [zero_mul, rnd53_zero]

theorem fmodC_nat (N k : ℕ) (hk : 0 < k) :
    fmodC ((N : ℚ)) ((k : ℚ)) = ((N % k : ℕ) : ℚ) := by
  unfold fmodC truncD
  rw [if_pos (by positivity : (0 : ℚ) ≤ (N : ℚ) / (k : ℚ))]
  have hfl := floor_div_add_frac N k 0 hk (le_refl 0) (by norm_num)
  rw [add_zero] at hfl
  rw [hfl, Int.cast_natCast]
  have hdm : k * (N / k) + N % k = N := Nat.div_add_mod N k
  have hq : (k : ℚ) * ((N / k : ℕ) : ℚ) + ((N % k : ℕ) : ℚ) = (N : ℚ) := by exact_mod_cast hdm
  linarith

theorem pyModF_nat (N k : ℕ) (hk : 0 < k) :
    pyModF ((N : ℚ)) ((k : ℚ)) = ((N % k : ℕ) : ℚ) := by
  unfold pyModF
  rw [fmodC_nat N k hk]
  by_cases hm : ((N % k : ℕ) : ℚ) = 0
  · rw [if_neg (not_not_intro hm), hm]
  · rw [if_pos hm]
    have d1 : decide ((k : ℚ) < 0) = false := decide_eq_false (not_lt.mpr (by positivity))
    have d2 : decide (((N % k : ℕ) : ℚ) < 0) = false :=
      decide_eq_false (not_lt.mpr (by positivity))
    rw [if_neg (by rw [d1, d2]; simp)]

theorem pyFloorDivF_nat (N k : ℕ) (hk : 0 < k) (hN : N < 2 ^ 53) :
    pyFloorDivF ((N : ℚ)) ((k : ℚ)) = ((N / k : ℕ) : ℚ) := by
  unfold pyFloorDivF
  rw [fmodC_nat N k hk]
  have d1 : decide ((k : ℚ) < 0) = false := decide_eq_false (not_lt.mpr (by positivity))
  have d2 : decide (((N % k : ℕ) : ℚ) < 0) = false :=
    decide_eq_false (not_lt.mpr (by positivity))
  rw [if_neg (by rw [d1, d2]; simp)]
  have hsub : fSub ((N : ℚ)) (((N % k : ℕ) : ℚ)) = (((N - N % k : ℕ)) : ℚ) := by
    unfold fSub
    rw [show (N : ℚ) - ((N % k : ℕ) : ℚ) = (((N - N % k : ℕ)) : ℚ) by
      rw [Nat.cast_sub (Nat.mod_le N k)]]
    exact rnd53_natCast _ (lt_of_le_of_lt (Nat.sub_le N _) hN)
  rw [hsub]
  have hdq : (((N - N % k : ℕ)) : ℚ) / (k : ℚ) = ((N / k : ℕ) : ℚ) := by
    rw [show (N - N % k : ℕ) = k * (N / k) by
      have := Nat.div_add_mod N k
      omega]
    push_cast
    rw [mul_comm, mul_div_assoc, div_self (Nat.cast_ne_zero.mpr (by omega)), mul_one]
  have hdiv : fDiv ((((N - N % k : ℕ)) : ℚ)) ((k : ℚ)) = ((N / k : ℕ) : ℚ) := by
    unfold fDiv
    rw [hdq]
    exact rnd53_natCast _ (lt_of_le_of_lt (Nat.div_le_self N k) hN)
  rw [hdiv]
  unfold snapQ
  by_cases hz : ((N / k : ℕ) : ℚ) = 0
  · rw [if_neg (not_not_intro hz), hz]
  · rw [if_pos hz, Int.floor_natCast]
    have hs0 : fSub ((N / k : ℕ) : ℚ) ((((N / k : ℕ) : ℤ)) : ℚ) = 0 := by
      unfold fSub
      rw [Int.cast_natCast, sub_self, rnd53_zero]
    rw [hs0, if_neg (by norm_num), Int.cast_natCast]

theorem tsFieldsF_nat (N : ℕ) (hN : N < 2 ^ 53) :
    tsFieldsF ((N : ℚ)) =
      (((N / 3600 : ℕ) : ℤ), ((N % 3600 / 60 : ℕ) : ℤ), ((N % 60 : ℕ) : ℤ), 0) := by
  have c1 : (3600 : ℚ) = ((3600 : ℕ) : ℚ) := by norm_num
  have c2 : (60 : ℚ) = ((60 : ℕ) : ℚ) := by norm_num
  have c3 : (1 : ℚ) = ((1 : ℕ) : ℚ) := by norm_num
  unfold tsFieldsF
  rw [c1, c2, c3]
  rw [pyFloorDivF_nat N 3600 (by norm_num) hN, pyModF_nat N 3600 (by norm_num),
    pyFloorDivF_nat (N % 3600) 60 (by norm_num) (lt_of_le_of_lt (Nat.mod_le N _) hN),
    pyModF_nat N 60 (by norm_num), pyModF_nat N 1 (by norm_num), Nat.mod_one,
    Nat.cast_zero, fMul_zero_left, truncD_natCast, truncD_natCast, truncD_natCast,
    truncD_zero]

theorem renderTsF_nat (sep : Char) (N : ℕ) (hN : N < 2 ^ 53) :
    renderTsF sep ((N : ℚ)) =
      zeroPad 2 (natToDec (N / 3600)) ++ ':' :: zeroPad 2 (natToDec (N % 3600 / 60)) ++ ':' ::
        zeroPad 2 (natToDec (N % 60)) ++ sep :: zeroPad 3 (natToDec 0) := by
  unfold renderTsF
  rw [tsFieldsF_nat N hN]
  dsimp only
  rw [intToDecPad_natCast, intToDecPad_natCast, intToDecPad_natCast,
    show (0 : ℤ) = ((0 : ℕ) : ℤ) by norm_num, intToDecPad_natCast]

theorem strToDbl_dot000 (a : PyStr) (ha : a ≠ []) (hd : ∀ c ∈ a, c.isDigit = true)
    (hlt : decVal a < 2 ^ 53) :
    strToDbl (a ++ '.' :: ['0', '0', '0']) = some (Dbl.fin ((decVal a : ℚ))) := by
  unfold strToDbl
  rw [pyFloat_dot a ['0', '0', '0'] ha hd (by decide), Option.map_some']
  rw [show decVal ['0', '0', '0'] = 0 by decide]
  rw [Nat.cast_zero, zero_div, add_zero, rnd53_natCast _ hlt]
  rw [if_neg (by
    rw [abs_of_nonneg (by positivity)]
    unfold dblMax
    exact not_le.mpr (by exact_mod_cast lt_trans hlt (by norm_num : (2 ^ 53 : ℕ) < 2 ^ 1024)))]

theorem intToDbl_small (n : ℤ) (h : n.natAbs < 2 ^ 53) : intToDbl n = some ((n : ℚ)) := by
  unfold intToDbl
  rw [rnd53_intCast n h]
  rw [if_neg (by
    rw [show |((n : ℤ) : ℚ)| = ((n.natAbs : ℕ) : ℚ) by
      rw [← Int.cast_natCast, Int.natCast_natAbs, Int.cast_abs]]
    unfold dblMax
    exact not_le.mpr (by exact_mod_cast lt_trans h (by norm_num : (2 ^ 53 : ℕ) < 2 ^ 1024)))]

theorem intToDbl_le305 (n : ℤ) (h : n.natAbs ≤ 10 ^ 305) :
    intToDbl n = some (rnd53 ((n : ℚ))) := by
  unfold intToDbl
  rw [if_neg (not_le.mpr (rnd53_int_lt_max n h))]

theorem intToDbl_big (n : ℤ) (h1 : (2 : ℚ) ^ (1024 : ℤ) ≤ ((n : ℚ)))
    (h2 : ((n : ℚ)) ≤ (2 : ℚ) ^ (4000 : ℤ)) : intToDbl n = none := by
  unfold intToDbl
  have hpos : (0 : ℚ) < (n : ℚ) := lt_of_lt_of_le (zpow_pos (by norm_num) _) h1
  have hr : rnd53 ((n : ℚ)) = rnd53Pos ((n : ℚ)) := by
    unfold rnd53
    rw [if_neg (ne_of_gt hpos), if_neg (not_lt.mpr hpos.le)]
  rw [if_pos (by
    rw [hr, abs_of_nonneg (rnd53Pos_nonneg _ hpos), dblMax_eq]
    exact rnd53Pos_ge_big _ h1 h2)]

theorem intAddDbl_nat (a b : ℕ) (h : a + b < 2 ^ 53) :
    intAddDbl ((a : ℤ)) (Dbl.fin ((b : ℚ))) = some (Dbl.fin (((a + b : ℕ) : ℚ))) := by
  unfold intAddDbl
  dsimp only
  rw [intToDbl_small ((a : ℤ)) (by rw [Int.natAbs_ofNat]; omega), Option.map_some']
  rw [show ((a : ℤ) : ℚ) + (b : ℚ) = ((a + b : ℕ) : ℚ) by push_cast; ring]
  rw [rnd53_natCast _ h]
  rw [if_neg (by
    rw [abs_of_nonneg (by positivity)]
    unfold dblMax
    exact not_le.mpr (by exact_mod_cast lt_trans h (by norm_num : (2 ^ 53 : ℕ) < 2 ^ 1024)))]

theorem parseDblVal_of_coreF (s : PyStr) (q : ℚ)
    (h : parseTimestampCoreF s = Except.ok (Dbl.fin q)) : parseDblVal s = some q := by
  unfold parseDblVal parseTimestampF
  rw [h]

theorem parseF_shape1 (C : PyStr) (nC : C ≠ []) (dC : ∀ c ∈ C, c.isDigit = true)
    (hlt : decVal C < 2 ^ 53) :
    parseTimestampCoreF (C ++ ('.' :: ['0', '0', '0'])) =
      Except.ok (Dbl.fin ((decVal C : ℚ))) := by
  have hchars : ∀ c ∈ C ++ ('.' :: ['0', '0', '0']), isPySpace c = false := by
    intro c hc
    rcases List.mem_append.mp hc with h | h
    · exact isPySpace_eq_false_of_digit c (dC c h)
    · rcases List.mem_cons.mp h with rfl | h2
      · decide
      · simp only [List.mem_cons, List.not_mem_nil, or_false] at h2
        rcases h2 with rfl | rfl | rfl <;> decide
  have hnocolon : ':' ∉ C ++ ('.' :: ['0', '0', '0']) := by
    intro hm
    rcases List.mem_append.mp hm with h | h
    · exact absurd (dC ':' h) (by decide)
    · rcases List.mem_cons.mp h with he | h2
      · exact absurd he (by decide)
      · simp at h2
  unfold parseTimestampCoreF
  rw [pyStrip_eq_self _ hchars, splitOnC_single ':' _ hnocolon]
  dsimp only
  rw [strToDbl_dot000 C nC dC hlt]

theorem parseF_shape2 (B C : PyStr) (nB : B ≠ []) (dB : ∀ c ∈ B, c.isDigit = true)
    (nC : C ≠ []) (dC : ∀ c ∈ C, c.isDigit = true)
    (hbound : decVal B * 60 + decVal C < 2 ^ 53) :
    parseTimestampCoreF (B ++ (':' :: (C ++ ('.' :: ['0', '0', '0'])))) =
      Except.ok (Dbl.fin (((decVal B * 60 + decVal C : ℕ) : ℚ))) := by
  have hColonB : ':' ∉ B := fun hm => absurd (dB ':' hm) (by decide)
  have hchars : ∀ c ∈ B ++ (':' :: (C ++ ('.' :: ['0', '0', '0']))), isPySpace c = false := by
    intro c hc
    rcases List.mem_append.mp hc with h | h
    · exact isPySpace_eq_false_of_digit c (dB c h)
    · rcases List.mem_cons.mp h with rfl | h2
      · decide
      · rcases List.mem_append.mp h2 with h3 | h3
        · exact isPySpace_eq_false_of_digit c (dC c h3)
        · rcases List.mem_cons.mp h3 with rfl | h4
          · decide
          · simp only [List.mem_cons, List.not_mem_nil, or_false] at h4
            rcases h4 with rfl | rfl | rfl <;> decide
  have hnocolon : ':' ∉ C ++ ('.' :: ['0', '0', '0']) := by
    intro hm
    rcases List.mem_append.mp hm with h | h
    · exact absurd (dC ':' h) (by decide)
    · rcases List.mem_cons.mp h with he | h2
      · exact absurd he (by decide)
      · simp at h2
  unfold parseTimestampCoreF
  rw [pyStrip_eq_self _ hchars, splitOnC_append ':' B _ hColonB,
    splitOnC_single ':' _ hnocolon]
  dsimp only
  rw [pyInt_digits B nB dB, strToDbl_dot000 C nC dC (by omega)]
  dsimp only
  rw [show ((decVal B : ℤ)) * 60 = (((decVal B * 60 : ℕ)) : ℤ) by push_cast; ring]
  rw [intAddDbl_nat _ _ (by omega)]

theorem parseF_shape3 (A B C : PyStr) (nA : A ≠ []) (dA : ∀ c ∈ A, c.isDigit = true)
    (nB : B ≠ []) (dB : ∀ c ∈ B, c.isDigit = true)
    (nC : C ≠ []) (dC : ∀ c ∈ C, c.isDigit = true)
    (hbound : decVal A * 3600 + decVal B * 60 + decVal C < 2 ^ 53) :
    parseTimestampCoreF (A ++ (':' :: (B ++ (':' :: (C ++ ('.' :: ['0', '0', '0'])))))) =
      Except.ok (Dbl.fin (((decVal A * 3600 + decVal B * 60 + decVal C : ℕ) : ℚ))) := by
  have hnocolon : ':' ∉ C ++ ('.' :: ['0', '0', '0']) := by
    intro hm
    rcases List.mem_append.mp hm with h | h
    · exact absurd (dC ':' h) (by decide)
    · rcases List.mem_cons.mp h with he | h2
      · exact absurd he (by decide)
      · simp at h2
  unfold parseTimestampCoreF
  rw [canonical_no_space A B C ['0', '0', '0'] dA dB dC (by decide),
    canonical_split A B _ dA dB hnocolon]
  dsimp only
  rw [pyInt_digits A nA dA, pyInt_digits B nB dB, strToDbl_dot000 C nC dC (by omega)]
  dsimp only
  rw [show ((decVal A : ℤ)) * 3600 + ((decVal B : ℤ)) * 60 =
      (((decVal A * 3600 + decVal B * 60 : ℕ)) : ℤ) by push_cast; ring]
  rw [intAddDbl_nat _ _ (by omega)]

theorem decVal_one_zeros (k : ℕ) : decVal ('1' :: List.replicate k '0') = 10 ^ k := by
  unfold decVal
  rw [List.map_cons, List.map_replicate]
  rw [show digVal '1' = 1 by decide, show digVal '0' = 0 by decide]
  rw [List.reverse_cons, List.reverse_replicate]
  rw [Nat.ofDigits_append, ofDigits_replicate_zero, List.length_replicate,
    Nat.ofDigits_singleton]
  ring

/-- C9 counterexample.  On the timestamp `1<309 zeros>:0:1.5` — shaped
like `H:M:S.mmm`, every component numeric — the hour conversion makes
`hours * 3600` a `3.6·10^312` Python int; its conversion to float inside
`hours * 3600 + minutes * 60 + seconds` raises `OverflowError`, which
`except (ValueError, IndexError)` does not catch: `_parse_timestamp` is
not total, and one such timestamp aborts the whole file's parse. -/
theorem parse_timestamp_overflow_aborts : parseTimestampF hugeTs = Except.error () := by
  have dA : ∀ c ∈ '1' :: List.replicate 309 '0', c.isDigit = true := by
    intro c hc
    rcases List.mem_cons.mp hc with rfl | h2
    · decide
    · rw [List.eq_of_mem_replicate h2]
      decide
  have dB : ∀ c ∈ ['0'], c.isDigit = true := by
    intro c hc
    simp only [List.mem_cons, List.not_mem_nil, or_false] at hc
    subst hc
    decide
  have hnocolon : ':' ∉ ['1', '.', '5'] := by decide
  have hA_ne : ('1' :: List.replicate 309 '0') ≠ [] := by simp
  have hchars : ∀ c ∈ ('1' :: List.replicate 309 '0') ++
      (':' :: (['0'] ++ (':' :: ['1', '.', '5']))), isPySpace c = false := by
    intro c hc
    rcases List.mem_append.mp hc with h | h
    · exact isPySpace_eq_false_of_digit c (dA c h)
    · rcases List.mem_cons.mp h with rfl | h2
      · decide
      · rcases List.mem_append.mp h2 with h3 | h3
        · exact isPySpace_eq_false_of_digit c (dB c h3)
        · rcases List.mem_cons.mp h3 with rfl | h4
          · decide
          · simp only [List.mem_cons, List.not_mem_nil, or_false] at h4
            rcases h4 with rfl | rfl | rfl <;> decide
  have hovf : intToDbl (((10 ^ 309 * 3600 : ℕ) : ℤ)) = none := by
    apply intToDbl_big
    · rw [show ((2 : ℚ) ^ (1024 : ℤ)) = ((2 ^ 1024 : ℕ) : ℚ) by
        rw [show ((1024 : ℤ)) = ((1024 : ℕ) : ℤ) by norm_num, zpow_natCast]
        push_cast
        ring]
      rw [show (((10 ^ 309 * 3600 : ℕ) : ℤ) : ℚ) = ((10 ^ 309 * 3600 : ℕ) : ℚ) by
        push_cast
        ring]
      exact_mod_cast (by norm_num : (2 ^ 1024 : ℕ) ≤ 10 ^ 309 * 3600)
    · rw [show ((2 : ℚ) ^ (4000 : ℤ)) = ((2 ^ 4000 : ℕ) : ℚ) by
        rw [show ((4000 : ℤ)) = ((4000 : ℕ) : ℤ) by norm_num, zpow_natCast]
        push_cast
        ring]
      rw [show (((10 ^ 309 * 3600 : ℕ) : ℤ) : ℚ) = ((10 ^ 309 * 3600 : ℕ) : ℚ) by
        push_cast
        ring]
      exact_mod_cast (by norm_num : (10 ^ 309 * 3600 : ℕ) ≤ 2 ^ 4000)
  have haddv : intAddDbl (((10 ^ 309 * 3600 : ℕ) : ℤ)) (Dbl.fin (3/2)) = none := by
    unfold intAddDbl
    dsimp only
    rw [hovf]
    rfl
  have hcore : parseTimestampCoreF hugeTs = Except.error PyExc.ovfErr := by
    unfold parseTimestampCoreF hugeTs
    rw [pyStrip_eq_self _ hchars, canonical_split _ _ _ dA dB hnocolon]
    dsimp only
    rw [pyInt_digits _ hA_ne dA, decVal_one_zeros 309,
      show pyInt ['0'] = some ((0 : ℕ) : ℤ) from by decide,
      show strToDbl ['1', '.', '5'] = some (Dbl.fin (3/2)) from by decide]
    dsimp only
    rw [show (((10 ^ 309 : ℕ) : ℤ) * 3600 + ((0 : ℕ) : ℤ) * 60) =
        ((10 ^ 309 * 3600 : ℕ) : ℤ) by push_cast; ring]
    rw [haddv]
  unfold parseTimestampF
  rw [hcore]

theorem splitOnC_part_length (sep : Char) (s : PyStr) :
    ∀ p ∈ splitOnC sep s, p.length ≤ s.length := by
  induction s with
  | nil =>
    intro p hp
    simp only [splitOnC, List.mem_cons, List.not_mem_nil, or_false] at hp
    subst hp
    exact le_refl 0
  | cons c r ih =>
    intro p hp
    rw [splitOnC] at hp
    by_cases hc : c = sep
    · rw [if_pos hc] at hp
      rcases List.mem_cons.mp hp with rfl | h2
      · simp
      · exact le_trans (ih p h2) (by simp)
    · rw [if_neg hc] at hp
      rcases hg : splitOnC sep r with _ | ⟨g, gs⟩
      · exact absurd hg (splitOnC_ne_nil sep r)
      · rw [hg] at hp
        dsimp only at hp
        rcases List.mem_cons.mp hp with rfl | h2
        · have hgl : g.length ≤ r.length := ih g (by rw [hg]; exact List.mem_cons_self g gs)
          simp only [List.length_cons]
          omega
        · have := ih p (by rw [hg]; exact List.mem_cons_of_mem g h2)
          simp only [List.length_cons]
          omega

theorem pyStrip_length_le (s : PyStr) : (pyStrip s).length ≤ s.length := by
  unfold pyStrip
  calc ((s.dropWhile isPySpace).reverse.dropWhile isPySpace).reverse.length
      = ((s.dropWhile isPySpace).reverse.dropWhile isPySpace).length :=
        List.length_reverse _
    _ ≤ (s.dropWhile isPySpace).reverse.length := (List.dropWhile_sublist _).length_le
    _ = (s.dropWhile isPySpace).length := List.length_reverse _
    _ ≤ s.length := (List.dropWhile_sublist _).length_le

theorem pyNatStr_lt (s : PyStr) (n : ℕ) (h : pyNatStr s = some n) : n < 10 ^ s.length := by
  unfold pyNatStr at h
  by_cases hc : (!s.isEmpty && s.all Char.isDigit) = true
  · rw [if_pos hc] at h
    injection h with h2
    subst h2
    simp only [Bool.and_eq_true, List.all_eq_true] at hc
    exact decVal_lt s hc.2
  · rw [if_neg hc] at h
    exact absurd h (by simp)

theorem pyInt_natAbs_lt (s : PyStr) (z : ℤ) (h : pyInt s = some z) :
    z.natAbs < 10 ^ s.length := by
  unfold pyInt at h
  cases s with
  | nil => exact absurd h (by simp)
  | cons c r =>
    dsimp only at h
    by_cases h1 : c = '-'
    · rw [if_pos h1] at h
      rcases hn : pyNatStr r with _ | n
      · rw [hn] at h
        exact absurd h (by simp)
      · rw [hn] at h
        simp only [Option.map_some'] at h
        injection h with h2
        subst h2
        have hlt := pyNatStr_lt r n hn
        rw [Int.natAbs_neg]
        exact calc n < 10 ^ r.length := hlt
          _ ≤ 10 ^ (c :: r).length := Nat.pow_le_pow_right (by norm_num) (by simp)
    · rw [if_neg h1] at h
      by_cases h2 : c = '+'
      · rw [if_pos h2] at h
        rcases hn : pyNatStr r with _ | n
        · rw [hn] at h
          exact absurd h (by simp)
        · rw [hn] at h
          simp only [Option.map_some'] at h
          injection h with h3
          subst h3
          have hlt := pyNatStr_lt r n hn
          exact calc n < 10 ^ r.length := hlt
            _ ≤ 10 ^ (c :: r).length := Nat.pow_le_pow_right (by norm_num) (by simp)
      · rw [if_neg h2] at h
        rcases hn : pyNatStr (c :: r) with _ | n
        · rw [hn] at h
          exact absurd h (by simp)
        · rw [hn] at h
          simp only [Option.map_some'] at h
          injection h with h3
          subst h3
          exact pyNatStr_lt _ n hn

/-- C9 (corrected).  Below the astronomical threshold the parser is total:
for every input string of at most 300 characters `_parse_timestamp`
returns a value — its `except (ValueError, IndexError)` clause turns every
component failure into `0.0` — so within that range a bad timestamp never
aborts parsing.  (Totality fails beyond it: see the `OverflowError`
counterexample.) -/
theorem parse_timestamp_total_bounded (s : PyStr) (hlen : s.length ≤ 300) :
    (∃ v, parseTimestampF s = Except.ok v) ∧
    (parseTimestampCoreF s = Except.error PyExc.valErr →
      parseTimestampF s = Except.ok (Dbl.fin 0)) := by
  constructor
  · have hkey : parseTimestampCoreF s ≠ Except.error PyExc.ovfErr := by
      intro hbad
      have hsl : (pyStrip s).length ≤ 300 := le_trans (pyStrip_length_le s) hlen
      have hpow : ∀ p ∈ splitOnC ':' (pyStrip s), (10 : ℕ) ^ p.length ≤ 10 ^ 300 :=
        fun p hp => Nat.pow_le_pow_right (by norm_num)
          (le_trans (splitOnC_part_length ':' (pyStrip s) p hp) hsl)
      unfold parseTimestampCoreF at hbad
      rcases hsp : splitOnC ':' (pyStrip s) with _ | ⟨p0, rest⟩
      · rw [hsp] at hbad
        simp at hbad
      rcases rest with _ | ⟨p1, rest2⟩
      · rw [hsp] at hbad
        dsimp only at hbad
        rcases hd : strToDbl p0 with _ | v
        · rw [hd] at hbad
          simp at hbad
        · rw [hd] at hbad
          simp at hbad
      rcases rest2 with _ | ⟨p2, rest3⟩
      · rw [hsp] at hbad
        dsimp only at hbad
        rcases hi : pyInt p0 with _ | m
        · rw [hi] at hbad
          simp at hbad
        rcases hd : strToDbl p1 with _ | sec
        · rw [hi, hd] at hbad
          simp at hbad
        rw [hi, hd] at hbad
        dsimp only at hbad
        have hm : m.natAbs < 10 ^ 300 :=
          lt_of_lt_of_le (pyInt_natAbs_lt p0 m hi)
            (hpow p0 (by rw [hsp]; exact List.mem_cons_self _ _))
        have habs : (m * 60).natAbs ≤ 10 ^ 305 := by
          rw [Int.natAbs_mul]
          calc m.natAbs * (60 : ℤ).natAbs ≤ 10 ^ 300 * 60 := by
                rw [show (60 : ℤ).natAbs = 60 from rfl]
                exact Nat.mul_le_mul_right 60 (le_of_lt hm)
            _ ≤ 10 ^ 305 := by norm_num
        have hsome := intToDbl_le305 (m * 60) habs
        cases sec with
        | fin b =>
          unfold intAddDbl at hbad
          dsimp only at hbad
          rw [hsome, Option.map_some'] at hbad
          simp at hbad
        | inf =>
          unfold intAddDbl at hbad
          dsimp only at hbad
          rw [hsome, Option.map_some'] at hbad
          simp at hbad
      rcases rest3 with _ | ⟨p3, rest4⟩
      · rw [hsp] at hbad
        dsimp only at hbad
        rcases hi : pyInt p0 with _ | hh
        · rw [hi] at hbad
          simp at hbad
        rcases hj : pyInt p1 with _ | m
        · rw [hi, hj] at hbad
          simp at hbad
        rcases hd : strToDbl p2 with _ | sec
        · rw [hi, hj, hd] at hbad
          simp at hbad
        rw [hi, hj, hd] at hbad
        dsimp only at hbad
        have hhb : hh.natAbs < 10 ^ 300 :=
          lt_of_lt_of_le (pyInt_natAbs_lt p0 hh hi)
            (hpow p0 (by rw [hsp]; exact List.mem_cons_self _ _))
        have hmb : m.natAbs < 10 ^ 300 :=
          lt_of_lt_of_le (pyInt_natAbs_lt p1 m hj)
            (hpow p1 (by rw [hsp]; exact List.mem_cons_of_mem _ (List.mem_cons_self _ _)))
        have habs : (hh * 3600 + m * 60).natAbs ≤ 10 ^ 305 := by
          calc (hh * 3600 + m * 60).natAbs ≤ (hh * 3600).natAbs + (m * 60).natAbs :=
                Int.natAbs_add_le _ _
            _ = hh.natAbs * 3600 + m.natAbs * 60 := by
                rw [Int.natAbs_mul, Int.natAbs_mul]
                rfl
            _ ≤ 10 ^ 300 * 3600 + 10 ^ 300 * 60 := by
                have := le_of_lt hhb
                have := le_of_lt hmb
                exact Nat.add_le_add (Nat.mul_le_mul_right 3600 (le_of_lt hhb))
                  (Nat.mul_le_mul_right 60 (le_of_lt hmb))
            _ ≤ 10 ^ 305 := by norm_num
        have hsome := intToDbl_le305 (hh * 3600 + m * 60) habs
        cases sec with
        | fin b =>
          unfold intAddDbl at hbad
          dsimp only at hbad
          rw [hsome, Option.map_some'] at hbad
          simp at hbad
        | inf =>
          unfold intAddDbl at hbad
          dsimp only at hbad
          rw [hsome, Option.map_some'] at hbad
          simp at hbad
      · rw [hsp] at hbad
        dsimp only at hbad
        rcases hd : strToDbl p0 with _ | v
        · rw [hd] at hbad
          simp at hbad
        · rw [hd] at hbad
          simp at hbad
    cases hc : parseTimestampCoreF s with
    | ok v => exact ⟨v, by unfold parseTimestampF; rw [hc]⟩
    | error e =>
      cases e with
      | valErr => exact ⟨Dbl.fin 0, by unfold parseTimestampF; rw [hc]⟩
      | ovfErr => exact absurd hc hkey
  · intro h
    unfold parseTimestampF
    rw [h]

/-- Witness for C9 at the malformed 3-character input `a:b`, which parses
to `0.0` without raising. -/
theorem parse_timestamp_total_bounded_witness :
    (∃ v, parseTimestampF ['a', ':', 'b'] = Except.ok v) ∧
    (parseTimestampCoreF ['a', ':', 'b'] = Except.error PyExc.valErr →
      parseTimestampF ['a', ':', 'b'] = Except.ok (Dbl.fin 0)) :=
  parse_timestamp_total_bounded ['a', ':', 'b'] (by decide)

/-- C5 counterexample.  Parsing the valid timestamp `00:00:04.100` gives
the binary64 double nearest `4.1` (`4.0999999999999996…`); the formatter
then computes `int((x % 1) * 1000) = int(99.99999999999964…) = 99` and
emits `00:00:04.099` — a canonical-shaped string denoting a different
instant, as parsing it back confirms: the round-trip loses a
millisecond. -/
theorem float_roundtrip_drops_millisecond :
    ValidTimestamp ts4100 = true ∧ fmtOfParsed ts4100 = ts4099 ∧
    parseDblVal (fmtOfParsed ts4100) ≠ parseDblVal ts4100 :=
  ⟨by decide, by decide, by decide⟩

theorem validZero_parseF (s : PyStr) (hv : ValidTimestamp s = true)
    (hlen : s.length ≤ 12) (h000 : ∃ t, s = t ++ ['.', '0', '0', '0']) :
    ∃ N : ℕ, N < 2 ^ 53 ∧ parseTimestampCoreF s = Except.ok (Dbl.fin ((N : ℚ))) := by
  have e12 : (10 : ℕ) ^ 12 = 1000000000000 := by norm_num
  have e8 : (10 : ℕ) ^ 8 = 100000000 := by norm_num
  have e53 : (2 : ℕ) ^ 53 = 9007199254740992 := by norm_num
  unfold ValidTimestamp at hv
  obtain ⟨t, ht⟩ := h000
  rcases hsp : splitOnC ':' s with _ | ⟨p1, _ | ⟨p2, _ | ⟨p3, _ | ⟨p4, r4⟩⟩⟩⟩
  · exact absurd hsp (splitOnC_ne_nil _ _)
  · rw [hsp] at hv
    dsimp only at hv
    obtain ⟨a, b, hp, hane, hda, hdb, hblen, _⟩ := secPart_parse p1 hv
    have hs_eq : p1 = s := by
      have hj := joinSep_splitOnC ':' s
      rw [hsp] at hj
      exact hj
    have hb000 : b = ['0', '0', '0'] := by
      have h1 : t ++ ['.', '0', '0', '0'] = a ++ ('.' :: b) := by
        rw [← ht, ← hs_eq]
        exact hp
      obtain ⟨-, h2⟩ := List.append_inj' h1 (by simp [hblen])
      injection h2 with _ h3
      exact h3.symm
    have hplen : p1.length ≤ 12 := by
      rw [hs_eq]
      exact hlen
    have halen : a.length ≤ 8 := by
      have hl : p1.length = a.length + 4 := by
        rw [hp, hb000]
        simp
      omega
    have hav : decVal a < 10 ^ 8 :=
      lt_of_lt_of_le (decVal_lt a hda) (Nat.pow_le_pow_right (by norm_num) halen)
    refine ⟨decVal a, by omega, ?_⟩
    rw [← hs_eq, hp, hb000]
    exact parseF_shape1 a hane hda (by omega)
  · rw [hsp] at hv
    dsimp only at hv
    simp only [Bool.and_eq_true] at hv
    obtain ⟨h1, h2⟩ := hv
    simp only [isIntPart, Bool.and_eq_true, Bool.not_eq_true', List.isEmpty_eq_false,
      List.all_eq_true] at h1
    obtain ⟨h1ne, h1d⟩ := h1
    obtain ⟨a, b, hp, hane, hda, hdb, hblen, _⟩ := secPart_parse p2 h2
    have hs_eq : p1 ++ ':' :: p2 = s := by
      have hj := joinSep_splitOnC ':' s
      rw [hsp] at hj
      exact hj
    have hb000 : b = ['0', '0', '0'] := by
      have h1q : t ++ ['.', '0', '0', '0'] = (p1 ++ ':' :: a) ++ ('.' :: b) := by
        rw [← ht, ← hs_eq, hp]
        simp
      obtain ⟨-, h2q⟩ := List.append_inj' h1q (by simp [hblen])
      injection h2q with _ h3
      exact h3.symm
    have hm1 : p1.length ≤ 12 :=
      le_trans (splitOnC_part_length ':' s p1 (by rw [hsp]; exact List.mem_cons_self _ _)) hlen
    have hm2 : p2.length ≤ 12 :=
      le_trans (splitOnC_part_length ':' s p2
        (by rw [hsp]; exact List.mem_cons_of_mem _ (List.mem_cons_self _ _))) hlen
    have halen : a.length ≤ 8 := by
      have hl : p2.length = a.length + 4 := by
        rw [hp, hb000]
        simp
      omega
    have hb1 : decVal p1 < 10 ^ 12 :=
      lt_of_lt_of_le (decVal_lt p1 h1d) (Nat.pow_le_pow_right (by norm_num) hm1)
    have hav : decVal a < 10 ^ 8 :=
      lt_of_lt_of_le (decVal_lt a hda) (Nat.pow_le_pow_right (by norm_num) halen)
    have hbound : decVal p1 * 60 + decVal a < 2 ^ 53 := by omega
    refine ⟨decVal p1 * 60 + decVal a, hbound, ?_⟩
    rw [← hs_eq, hp, hb000]
    exact parseF_shape2 p1 a h1ne h1d hane hda hbound
  · rw [hsp] at hv
    dsimp only at hv
    simp only [Bool.and_eq_true] at hv
    obtain ⟨⟨h0, h1⟩, h2⟩ := hv
    simp only [isIntPart, Bool.and_eq_true, Bool.not_eq_true', List.isEmpty_eq_false,
      List.all_eq_true] at h0 h1
    obtain ⟨h0ne, h0d⟩ := h0
    obtain ⟨h1ne, h1d⟩ := h1
    obtain ⟨a, b, hp, hane, hda, hdb, hblen, _⟩ := secPart_parse p3 h2
    have hs_eq : p1 ++ ':' :: (p2 ++ ':' :: p3) = s := by
      have hj := joinSep_splitOnC ':' s
      rw [hsp] at hj
      exact hj
    have hb000 : b = ['0', '0', '0'] := by
      have h1q : t ++ ['.', '0', '0', '0'] = (p1 ++ ':' :: (p2 ++ ':' :: a)) ++ ('.' :: b) := by
        rw [← ht, ← hs_eq, hp]
        simp
      obtain ⟨-, h2q⟩ := List.append_inj' h1q (by simp [hblen])
      injection h2q with _ h3
      exact h3.symm
    have hm1 : p1.length ≤ 12 :=
      le_trans (splitOnC_part_length ':' s p1 (by rw [hsp]; exact List.mem_cons_self _ _)) hlen
    have hm2 : p2.length ≤ 12 :=
      le_trans (splitOnC_part_length ':' s p2
        (by rw [hsp]; exact List.mem_cons_of_mem _ (List.mem_cons_self _ _))) hlen
    have hm3 : p3.length ≤ 12 :=
      le_trans (splitOnC_part_length ':' s p3
        (by rw [hsp]
            exact List.mem_cons_of_mem _ (List.mem_cons_of_mem _ (List.mem_cons_self _ _)))) hlen
    have halen : a.length ≤ 8 := by
      have hl : p3.length = a.length + 4 := by
        rw [hp, hb000]
        simp
      omega
    have hb0 : decVal p1 < 10 ^ 12 :=
      lt_of_lt_of_le (decVal_lt p1 h0d) (Nat.pow_le_pow_right (by norm_num) hm1)
    have hb1 : decVal p2 < 10 ^ 12 :=
      lt_of_lt_of_le (decVal_lt p2 h1d) (Nat.pow_le_pow_right (by norm_num) hm2)
    have hav : decVal a < 10 ^ 8 :=
      lt_of_lt_of_le (decVal_lt a hda) (Nat.pow_le_pow_right (by norm_num) halen)
    have hbound : decVal p1 * 3600 + decVal p2 * 60 + decVal a < 2 ^ 53 := by omega
    refine ⟨decVal p1 * 3600 + decVal p2 * 60 + decVal a, hbound, ?_⟩
    rw [← hs_eq, hp, hb000]
    exact parseF_shape3 p1 p2 a h0ne h0d h1ne h1d hane hda hbound
  · rw [hsp] at hv
    exact absurd hv (by simp)

/-- C5 (corrected).  Under the program's binary64 arithmetic the
formatter's output is canonical zero-padded `HH:MM:SS.mmm`, and the
round-trip preserves the instant exactly when the parsed value is exactly
representable: every valid whole-second timestamp (fractional digits
`000`, at most 12 characters) formats to the canonical string of the same
instant and parses back to the same double.  For general millisecond
values the claimed round-trip fails — decimal fractions round to binary
and `int()` truncates, so the emitted milliseconds can be one less than
the input's (`00:00:04.100` → `00:00:04.099`, see the counterexample). -/
theorem float_roundtrip_whole_seconds (s : PyStr) (hv : ValidTimestamp s = true)
    (hlen : s.length ≤ 12) (h000 : ∃ t, s = t ++ ['.', '0', '0', '0']) :
    parseDblVal (fmtOfParsed s) = parseDblVal s ∧
    CanonicalTimestamp (fmtOfParsed s) = true := by
  obtain ⟨N, hN, hcore⟩ := validZero_parseF s hv hlen h000
  have hval : parseDblVal s = some ((N : ℚ)) := parseDblVal_of_coreF s _ hcore
  have hz : zeroPad 3 (natToDec 0) = ['0', '0', '0'] := by decide
  have hfmt : fmtOfParsed s =
      zeroPad 2 (natToDec (N / 3600)) ++ ':' :: zeroPad 2 (natToDec (N % 3600 / 60)) ++ ':' ::
        zeroPad 2 (natToDec (N % 60)) ++ '.' :: zeroPad 3 (natToDec 0) := by
    unfold fmtOfParsed
    rw [hval]
    unfold formatTimestampVttF
    exact renderTsF_nat '.' N hN
  have hM : N % 3600 / 60 < 60 := by omega
  have hS : N % 60 < 60 := Nat.mod_lt _ (by norm_num)
  constructor
  · rw [hfmt, hval, hz, tsShape_norm]
    have hA_ne := zeroPad_ne_nil 2 (natToDec (N / 3600)) (by norm_num)
    have hB_ne := zeroPad_ne_nil 2 (natToDec (N % 3600 / 60)) (by norm_num)
    have hC_ne := zeroPad_ne_nil 2 (natToDec (N % 60)) (by norm_num)
    have dA : ∀ c ∈ zeroPad 2 (natToDec (N / 3600)), c.isDigit = true :=
      zeroPad_digits 2 _ (natToDec_digits _)
    have dB : ∀ c ∈ zeroPad 2 (natToDec (N % 3600 / 60)), c.isDigit = true :=
      zeroPad_digits 2 _ (natToDec_digits _)
    have dC : ∀ c ∈ zeroPad 2 (natToDec (N % 60)), c.isDigit = true :=
      zeroPad_digits 2 _ (natToDec_digits _)
    have hbound2 : decVal (zeroPad 2 (natToDec (N / 3600))) * 3600 +
        decVal (zeroPad 2 (natToDec (N % 3600 / 60))) * 60 +
        decVal (zeroPad 2 (natToDec (N % 60))) < 2 ^ 53 := by
      rw [decVal_zeroPad, decVal_natToDec, decVal_zeroPad, decVal_natToDec,
        decVal_zeroPad, decVal_natToDec]
      omega
    have hback := parseF_shape3 (zeroPad 2 (natToDec (N / 3600)))
      (zeroPad 2 (natToDec (N % 3600 / 60))) (zeroPad 2 (natToDec (N % 60)))
      hA_ne dA hB_ne dB hC_ne dC hbound2
    rw [decVal_zeroPad, decVal_natToDec, decVal_zeroPad, decVal_natToDec,
      decVal_zeroPad, decVal_natToDec] at hback
    have hMN : N / 3600 * 3600 + N % 3600 / 60 * 60 + N % 60 = N := by omega
    rw [hMN] at hback
    exact parseDblVal_of_coreF _ _ hback
  · rw [hfmt]
    exact canonical_rendered (N / 3600) (N % 3600 / 60) (N % 60) 0 hM hS (by norm_num)

/-- Witness for C5's amended theorem at the whole-second input
`01:02:03.000`. -/
theorem float_roundtrip_whole_seconds_witness :
    parseDblVal (fmtOfParsed tsWholeSec) = parseDblVal tsWholeSec ∧
    CanonicalTimestamp (fmtOfParsed tsWholeSec) = true :=
  float_roundtrip_whole_seconds tsWholeSec (by decide) (by decide)
    ⟨['0', '1', ':', '0', '2', ':', '0', '3'], by decide⟩

end V2T
